import Mathlib

/-!
# CloudSync replication core: formal model and verification

A shallow embedding of the CRDT replication core of `sqlite-sync`
(`CloudSync.h`).  The repository ships only the public C header; the
implementation behind it is modelled from the specification: each
`Modelled from the spec:` definition names the missing entry point and
follows the spec's words for it.

The model covers: the clock (`cloudsync_dbversion_next`), the 9-field
change record, the merge engine (`merge_insert`, `merge_insert_col`) with
causal-length sentinels, the payload codec (`cloudsync_payload_apply`),
the primary-key codec, the local mutation tracker's insert rule
(`local_mark_insert_sentinel_meta`) and the grow-only-set table algorithm
(`table_algo_isgos`).
-/

namespace CloudSync

/-- Raw byte sequences (table names, primary keys, site identifiers,
column names, values) are modelled as lists of naturals. -/
abbrev Bytes := List Nat

/-- The reserved tombstone value `CLOUDSYNC_TOMBSTONE_VALUE`, the bytes of
the string `"__[RIP]__"` from the header. -/
def TOMBSTONE_VALUE : Bytes := [95, 95, 91, 82, 73, 80, 93, 95, 95]

/-- Three-way comparison on naturals. -/
def natCmp (a b : Nat) : Ordering :=
  if a < b then .lt else if b < a then .gt else .eq

/-- Bytewise (memcmp-style, lexicographic) three-way comparison on byte
sequences; the spec orders site identifiers this way. -/
def bytesCmp : Bytes → Bytes → Ordering
  | [], [] => .eq
  | [], _ :: _ => .lt
  | _ :: _, [] => .gt
  | a :: as, b :: bs =>
    match natCmp a b with
    | .eq => bytesCmp as bs
    | o => o

/-- The ordering key of the merge engine: causal length first (spec rule 4),
then `col_version` (rule 1), then `dbversion` (rule 2), then the site
identifier bytewise (rule 3). -/
structure MergeKey where
  cl : Nat
  col_version : Nat
  db_version : Nat
  site_id : Bytes
deriving DecidableEq, Repr

/-- Lexicographic three-way comparison of merge keys, in the spec's order:
`cl`, then `col_version`, then `dbversion`, then `site_id` bytewise. -/
def keyCmp (a b : MergeKey) : Ordering :=
  (natCmp a.cl b.cl).then ((natCmp a.col_version b.col_version).then
    ((natCmp a.db_version b.db_version).then (bytesCmp a.site_id b.site_id)))

/-- The 9-field Change Record, the exchange unit of replication:
`{table, primary_key_bytes, cl, column_name | TOMBSTONE_MARKER,
value | TOMBSTONE_VALUE, col_version, dbversion, site_id, seq}`
(`CLOUDSYNC_CHANGES_NCOLS = 9`). -/
structure ChangeRecord where
  tbl : Bytes
  pk : Bytes
  cl : Nat
  colname : Bytes
  value : Bytes
  col_version : Nat
  db_version : Nat
  site_id : Bytes
  seq : Nat
deriving DecidableEq, Repr

/-- A structural (insert/delete/move) record carries the reserved tombstone
column marker instead of a column name. -/
def ChangeRecord.isSentinel (r : ChangeRecord) : Bool :=
  r.colname = TOMBSTONE_VALUE

/-- A delete record is a structural record whose value is the reserved
tombstone value. -/
def ChangeRecord.isDelete (r : ChangeRecord) : Bool :=
  r.isSentinel && r.value = TOMBSTONE_VALUE

/-- Per-(row, column) metadata stored locally for conflict resolution:
the column's causal length, `col_version`, `dbversion`, origin site,
current value and sequence number. -/
structure ColMeta where
  cl : Nat
  col_version : Nat
  db_version : Nat
  site_id : Bytes
  value : Bytes
  seq : Nat
deriving DecidableEq, Repr

/-- Sentinel Metadata: the hidden per-row record storing the row's current
causal length `cl`, the clock values of its last structural change, and
whether the row is live or tombstoned. -/
structure Sentinel where
  cl : Nat
  col_version : Nat
  db_version : Nat
  site_id : Bytes
  live : Bool
  seq : Nat
deriving DecidableEq, Repr

def ChangeRecord.mkey (r : ChangeRecord) : MergeKey :=
  ⟨r.cl, r.col_version, r.db_version, r.site_id⟩

def ColMeta.mkey (c : ColMeta) : MergeKey :=
  ⟨c.cl, c.col_version, c.db_version, c.site_id⟩

def Sentinel.mkey (sn : Sentinel) : MergeKey :=
  ⟨sn.cl, sn.col_version, sn.db_version, sn.site_id⟩

/-- The state the merge engine keeps for one (table, primary key) row:
the sentinel and the per-column metadata. -/
structure RowState where
  sentinel : Option Sentinel
  cols : Bytes → Option ColMeta

/-- The replica state: for every (table, primary key) pair, the row's
sentinel and column metadata. -/
abbrev ReplicaState := Bytes × Bytes → RowState

/-- The empty replica: no sentinels, no column metadata. -/
def emptyState : ReplicaState := fun _ => ⟨none, fun _ => none⟩

/-- The causal length the row's sentinel records (0 when the row has never
been seen). -/
def RowState.scl (row : RowState) : Nat :=
  match row.sentinel with
  | none => 0
  | some sn => sn.cl

/-- Modelled from the spec: the merge engine's decision rules 1–4 as the
nested comparison the spec states — causal length first (rule 4), then
`col_version` (rule 1, higher wins outright / lower loses), then
`dbversion` (rule 2), then the site identifier bytewise with the larger
value winning (rule 3).  Returns `true` when the incoming key wins over
the stored key. -/
def mergeWins (stored incoming : MergeKey) : Bool :=
  if stored.cl < incoming.cl then true
  else if incoming.cl < stored.cl then false
  else if stored.col_version < incoming.col_version then true
  else if incoming.col_version < stored.col_version then false
  else if stored.db_version < incoming.db_version then true
  else if incoming.db_version < stored.db_version then false
  else bytesCmp stored.site_id incoming.site_id == .lt

/-- Modelled from the spec: `merge_insert_col`'s decision for an ordinary
column record.  A record whose causal length is below the row sentinel's
causal length is rejected outright (rule 4 / causal-length correctness);
otherwise the record is compared with the stored per-column metadata by
rules 1–4, and accepted when no metadata is stored for that column. -/
def merge_decision_col (row : RowState) (r : ChangeRecord) : Bool :=
  if r.cl < row.scl then false
  else
    match row.cols r.colname with
    | none => true
    | some c => mergeWins c.mkey r.mkey

/-- Modelled from the spec: `merge_insert`'s decision for a structural
(insert/delete/move) record, compared with the stored row sentinel by
rule 4 then rules 1–3; accepted when the row has no sentinel yet. -/
def merge_decision_sentinel (row : RowState) (r : ChangeRecord) : Bool :=
  match row.sentinel with
  | none => true
  | some sn => mergeWins sn.mkey r.mkey

/-- The column metadata an accepted column record leaves behind. -/
def ChangeRecord.toColMeta (r : ChangeRecord) : ColMeta :=
  ⟨r.cl, r.col_version, r.db_version, r.site_id, r.value, r.seq⟩

/-- The sentinel an accepted structural record leaves behind: the row is
live unless the record carries the reserved tombstone value. -/
def ChangeRecord.toSentinel (r : ChangeRecord) : Sentinel :=
  ⟨r.cl, r.col_version, r.db_version, r.site_id, r.value ≠ TOMBSTONE_VALUE, r.seq⟩

/-- Column metadata of a superseded incarnation (causal length strictly
below the new one) is dropped when a structural record is accepted;
metadata at the current causal length is retained. -/
def clearCols (cols : Bytes → Option ColMeta) (cl : Nat) :
    Bytes → Option ColMeta :=
  fun c =>
    match cols c with
    | none => none
    | some cm => if cm.cl < cl then none else some cm

/-- Point update of the per-column metadata map. -/
def updateCol (cols : Bytes → Option ColMeta) (r : ChangeRecord) :
    Bytes → Option ColMeta :=
  fun c => if c = r.colname then some r.toColMeta else cols c

/-- Modelled from the spec: applying a structural record to a row
(`merge_insert`): on `Accept`, install the record as the row's sentinel and
drop column metadata of superseded incarnations; on `Reject`, no-op. -/
def applySentinelRecord (row : RowState) (r : ChangeRecord) : RowState :=
  if merge_decision_sentinel row r then
    ⟨some r.toSentinel, clearCols row.cols r.cl⟩
  else row

/-- Modelled from the spec: applying an ordinary column record to a row
(`merge_insert_col`): on `Accept`, store the record's value and clock
metadata for that column; on `Reject`, no-op. -/
def applyColRecord (row : RowState) (r : ChangeRecord) : RowState :=
  if merge_decision_col row r then
    ⟨row.sentinel, updateCol row.cols r⟩
  else row

/-- Applying one change record to the row it addresses. -/
def applyRow (row : RowState) (r : ChangeRecord) : RowState :=
  if r.isSentinel then applySentinelRecord row r else applyColRecord row r

/-- Applying one change record to a replica: only the addressed
(table, primary key) row changes. -/
def applyRecord (s : ReplicaState) (r : ChangeRecord) : ReplicaState :=
  fun key => if key = (r.tbl, r.pk) then applyRow (s key) r else s key

/-- Feeding a list of change records to the merge engine in order. -/
def payload_apply_records (s : ReplicaState) (rs : List ChangeRecord) :
    ReplicaState :=
  rs.foldl applyRecord s

/-- Whether the merge engine accepts the record against the current state
(`Accept`/`AcceptWithReincarnation` versus `Reject`). -/
def recordWins (s : ReplicaState) (r : ChangeRecord) : Bool :=
  if r.isSentinel then merge_decision_sentinel (s (r.tbl, r.pk)) r
  else merge_decision_col (s (r.tbl, r.pk)) r

/-- The stored row sentinel is at least as large as the record: a replay of
the structural record will be rejected. -/
def sentDominates (row : RowState) (r : ChangeRecord) : Prop :=
  ∃ sn, row.sentinel = some sn ∧ keyCmp sn.mkey r.mkey ≠ .lt

/-- The record is gated out by the row's causal length, or the stored
column metadata is at least as large: a replay will be rejected. -/
def colDominates (row : RowState) (r : ChangeRecord) : Prop :=
  r.cl < row.scl ∨
    ∃ cm, row.cols r.colname = some cm ∧ keyCmp cm.mkey r.mkey ≠ .lt

/-- The row already dominates the record: the merge engine rejects a replay. -/
def rowDominates (row : RowState) (r : ChangeRecord) : Prop :=
  if r.isSentinel then sentDominates row r else colDominates row r

/-- The replica already dominates the record. -/
def dominates (s : ReplicaState) (r : ChangeRecord) : Prop :=
  rowDominates (s (r.tbl, r.pk)) r

/-! ## Payload codec

Modelled from the spec: the binary payload layout is a sequence of
fixed/variable-length records, one per Change Record field in the order
`(table, pk, cl, column, value, col_version, dbversion, site_id, seq)`;
the exact framing is an implementation choice as long as round trips
hold.  We use a self-delimiting unary length code for counters and
length-prefixed byte strings. -/
/-- Self-delimiting encoding of a counter. -/
def encNat : Nat → Bytes
  | 0 => [0]
  | n + 1 => 1 :: encNat n

/-- Decoder for `encNat`; fails on truncated or corrupt input. -/
def decNat : Bytes → Option (Nat × Bytes)
  | [] => none
  | 0 :: rest => some (0, rest)
  | 1 :: rest =>
    match decNat rest with
    | some (n, r) => some (n + 1, r)
    | none => none
  | _ => none

/-- Length-prefixed encoding of a byte string. -/
def encBytes (b : Bytes) : Bytes := encNat b.length ++ b

/-- Decoder for `encBytes`; fails when fewer bytes remain than announced. -/
def decBytes (x : Bytes) : Option (Bytes × Bytes) :=
  match decNat x with
  | none => none
  | some (n, rest) =>
    if n ≤ rest.length then some (rest.take n, rest.drop n) else none

/-- One Change Record in the fixed field order
`(table, pk, cl, column, value, col_version, dbversion, site_id, seq)`. -/
def encRecord (r : ChangeRecord) : Bytes :=
  encBytes r.tbl ++ (encBytes r.pk ++ (encNat r.cl ++ (encBytes r.colname ++
    (encBytes r.value ++ (encNat r.col_version ++ (encNat r.db_version ++
      (encBytes r.site_id ++ encNat r.seq)))))))

/-- Decoder for one Change Record, field by field in file order. -/
def decRecord (x : Bytes) : Option (ChangeRecord × Bytes) :=
  match decBytes x with
  | none => none
  | some (tbl, x1) =>
  match decBytes x1 with
  | none => none
  | some (pk, x2) =>
  match decNat x2 with
  | none => none
  | some (cl, x3) =>
  match decBytes x3 with
  | none => none
  | some (colname, x4) =>
  match decBytes x4 with
  | none => none
  | some (value, x5) =>
  match decNat x5 with
  | none => none
  | some (col_version, x6) =>
  match decNat x6 with
  | none => none
  | some (db_version, x7) =>
  match decBytes x7 with
  | none => none
  | some (site_id, x8) =>
  match decNat x8 with
  | none => none
  | some (seq, x9) =>
    some (⟨tbl, pk, cl, colname, value, col_version, db_version,
      site_id, seq⟩, x9)

/-- The record section of a payload: the records back to back. -/
def encRecords : List ChangeRecord → Bytes
  | [] => []
  | r :: rs => encRecord r ++ encRecords rs

/-- Decoder for a known number of consecutive records. -/
def decRecords : Nat → Bytes → Option (List ChangeRecord × Bytes)
  | 0, x => some ([], x)
  | n + 1, x =>
    match decRecord x with
    | none => none
    | some (r, x1) =>
      match decRecords n x1 with
      | none => none
      | some (rs, x2) => some (r :: rs, x2)

/-- Modelled from the spec: the payload encoder — the row count followed by
the serialized records, one contiguous blob. -/
def payload_encode (rs : List ChangeRecord) : Bytes :=
  encNat rs.length ++ encRecords rs

/-- Modelled from the spec: parsing a payload blob into its Change Records;
`none` models the `MalformedPayload` failure on truncated or corrupt
input (including trailing garbage). -/
def payload_decode (b : Bytes) : Option (List ChangeRecord) :=
  match decNat b with
  | none => none
  | some (n, rest) =>
    match decRecords n rest with
    | none => none
    | some (rs, []) => some rs
    | some (_, _ :: _) => none

/-- The payload-error kind reported by `cloudsync_payload_apply`. -/
inductive PayloadError where
  | malformedPayload
deriving DecidableEq, Repr

/-- Feeding records to the merge engine in file order while counting the
records the engine accepts. -/
def applyCount : ReplicaState → List ChangeRecord → ReplicaState × Nat
  | s, [] => (s, 0)
  | s, r :: rs =>
    let p := applyCount (applyRecord s r) rs
    (p.1, (if recordWins s r then 1 else 0) + p.2)

/-- Modelled from the spec: `cloudsync_payload_apply` — parse the blob
(failing with `MalformedPayload` on truncated/corrupt input), feed each
record into the merge engine in file order, and report the resulting
state together with the count of records actually applied and the count
of records seen. -/
def cloudsync_payload_apply (s : ReplicaState) (b : Bytes) :
    Except PayloadError (ReplicaState × Nat × Nat) :=
  match payload_decode b with
  | none => .error .malformedPayload
  | some rs => .ok ((applyCount s rs).1, (applyCount s rs).2, rs.length)

/-! ## Clock -/
/-- The header constant `CLOUDSYNC_VALUE_NOTSET`: the reserved "not set"
marker `-1` for `int64_t` parameters. -/
def CLOUDSYNC_VALUE_NOTSET : Int := -1

/-- Modelled from the spec: `cloudsync_dbversion_next` — with no merging
version (the reserved `CLOUDSYNC_VALUE_NOTSET`), increment and return the
local counter (local commit); with a merging version, return
`max(local, merging_version) + 1`.  The returned value is also the value
persisted as the new local dbversion. -/
def cloudsync_dbversion_next (local_version merging_version : Int) : Int :=
  if merging_version = CLOUDSYNC_VALUE_NOTSET then local_version + 1
  else max local_version merging_version + 1

/-- Modelled from the spec: `next_dbversion()` with no argument increments
and returns the local counter (a local commit). -/
def dbversion_local_commit (local_version : Int) : Int := local_version + 1

/-! ## Local Mutation Tracker: insert -/
/-- Modelled from the spec: `local_mark_insert_sentinel_meta` — observing a
local insert, if no sentinel exists for the primary key, create one with
`cl = 0` and mark it live; if a tombstoned sentinel exists, increment its
`cl` (new incarnation) and mark it live.  (A live sentinel just refreshes
its clock values; the spec fixes only the two cases above.) -/
def local_mark_insert_sentinel_meta (old : Option Sentinel) (site : Bytes)
    (db_version : Nat) (seq : Nat) : Sentinel :=
  match old with
  | none => ⟨0, 1, db_version, site, true, seq⟩
  | some sn =>
    if sn.live then { sn with db_version := db_version, seq := seq }
    else ⟨sn.cl + 1, 1, db_version, site, true, seq⟩

/-! ## Table algorithms -/
/-- The CRDT algorithm variants the registry can bind a table to: the
default causal-length set (`"cls"`, `CLOUDSYNC_DEFAULT_ALGO`) and the
grow-only set (`"gos"`). -/
inductive table_algo where
  | cls
  | gos
deriving DecidableEq, Repr

/-- The predicate `table_algo_isgos`: whether the table is bound to the grow-only-set
variant. -/
def table_algo_isgos (algo : table_algo) : Bool := algo = table_algo.gos

/-- Rules 1–3 alone (no causal-length rule): `col_version`, then
`dbversion`, then `site_id` bytewise with the larger value winning. -/
def tripleWins (stored incoming : MergeKey) : Bool :=
  if stored.col_version < incoming.col_version then true
  else if incoming.col_version < stored.col_version then false
  else if stored.db_version < incoming.db_version then true
  else if incoming.db_version < stored.db_version then false
  else bytesCmp stored.site_id incoming.site_id == .lt

/-- The `(col_version, dbversion, site_id)` lexicographic comparison. -/
def tripleCmp (a b : MergeKey) : Ordering :=
  (natCmp a.col_version b.col_version).then
    ((natCmp a.db_version b.db_version).then (bytesCmp a.site_id b.site_id))

/-- Modelled from the spec: the grow-only-set decision for an ordinary
column record — rule 4 is disabled, rules 1–3 are unchanged. -/
def merge_decision_col_gos (row : RowState) (r : ChangeRecord) : Bool :=
  match row.cols r.colname with
  | none => true
  | some c => tripleWins c.mkey r.mkey

/-- Modelled from the spec: the grow-only-set decision for a structural
record — deletes are not supported, rule 4 is disabled, rules 1–3 are
unchanged. -/
def merge_decision_sentinel_gos (row : RowState) (r : ChangeRecord) : Bool :=
  match row.sentinel with
  | none => true
  | some sn => tripleWins sn.mkey r.mkey

/-- Modelled from the spec: applying one record to a row under the
grow-only-set variant: tombstone/delete records are never applied, the
causal-length machinery (rule 4, the sentinel gate and the clearing of
superseded metadata) is disabled, and the variant is otherwise identical
to the causal-length set. -/
def applyRow_gos (row : RowState) (r : ChangeRecord) : RowState :=
  if r.isDelete then row
  else if r.isSentinel then
    (if merge_decision_sentinel_gos row r then ⟨some r.toSentinel, row.cols⟩
     else row)
  else
    (if merge_decision_col_gos row r then ⟨row.sentinel, updateCol row.cols r⟩
     else row)

/-- Applying one record to a row under the table's bound algorithm. -/
def applyRow_algo (algo : table_algo) (row : RowState) (r : ChangeRecord) :
    RowState :=
  if table_algo_isgos algo then applyRow_gos row r else applyRow row r

/-- Applying one record to a replica under the table's bound algorithm. -/
def applyRecord_algo (algo : table_algo) (s : ReplicaState)
    (r : ChangeRecord) : ReplicaState :=
  fun key => if key = (r.tbl, r.pk) then applyRow_algo algo (s key) r
    else s key

/-- The rows currently live on the replica: rows with a live sentinel. -/
def liveRows (s : ReplicaState) : Set (Bytes × Bytes) :=
  {p | ∃ sn, (s p).sentinel = some sn ∧ sn.live = true}

/-- A replica state in which every causal length is zero — the only states
a grow-only table can be in, since nothing ever deletes or reincarnates. -/
def clTrivial (s : ReplicaState) : Prop :=
  ∀ p, (∀ sn, (s p).sentinel = some sn → sn.cl = 0) ∧
    (∀ c cm, (s p).cols c = some cm → cm.cl = 0)

/-! ## Primary-Key Codec -/
/-- A typed primary-key column value.  Modelled from the spec: the header
does not list the supported storage classes, so we take the SQLite value
classes INTEGER, REAL (as its 64-bit pattern), TEXT and BLOB as the
supported set, and `vunsupported` stands for a value of any column type
outside it. -/
inductive PKValue where
  | vint (i : Int)
  | vreal (bits : Nat)
  | vtext (s : Bytes)
  | vblob (b : Bytes)
  | vunsupported (tag : Nat)
deriving DecidableEq, Repr

/-- Whether the value's column type is in the supported set. -/
def PKValue.supported : PKValue → Bool
  | .vunsupported _ => false
  | _ => true

/-- The error kind of the primary-key codec. -/
inductive PKError where
  | unsupportedKeyType
deriving DecidableEq, Repr

/-- Sign-and-magnitude encoding of a signed integer. -/
def encInt : Int → Bytes
  | .ofNat n => 0 :: encNat n
  | .negSucc n => 1 :: encNat n

/-- Decoder for `encInt`. -/
def decInt (x : Bytes) : Option (Int × Bytes) :=
  match x with
  | 0 :: rest => (decNat rest).map (fun p => (Int.ofNat p.1, p.2))
  | 1 :: rest => (decNat rest).map (fun p => (Int.negSucc p.1, p.2))
  | _ => none

/-- One typed value, tagged with its column type. -/
def pk_encode_value : PKValue → Except PKError Bytes
  | .vint i => .ok (0 :: encInt i)
  | .vreal bits => .ok (1 :: encNat bits)
  | .vtext s => .ok (2 :: encBytes s)
  | .vblob b => .ok (3 :: encBytes b)
  | .vunsupported _ => .error .unsupportedKeyType

/-- The concatenated value section of an encoded composite key. -/
def pk_encode_list : List PKValue → Except PKError Bytes
  | [] => .ok []
  | k :: ks =>
    match pk_encode_value k, pk_encode_list ks with
    | .ok b, .ok bs => .ok (b ++ bs)
    | .error e, _ => .error e
    | .ok _, .error e => .error e

/-- Modelled from the spec: encoding a composite primary key into the one
opaque byte sequence stored in a Change Record; fails with
`UnsupportedKeyType` when any column's type is outside the supported
set. -/
def cloudsync_pk_encode (ks : List PKValue) : Except PKError Bytes :=
  match pk_encode_list ks with
  | .ok bs => .ok (encNat ks.length ++ bs)
  | .error e => .error e

/-- Decoder for one tagged value. -/
def pk_decode_value (x : Bytes) : Option (PKValue × Bytes) :=
  match x with
  | 0 :: rest => (decInt rest).map (fun p => (PKValue.vint p.1, p.2))
  | 1 :: rest => (decNat rest).map (fun p => (PKValue.vreal p.1, p.2))
  | 2 :: rest => (decBytes rest).map (fun p => (PKValue.vtext p.1, p.2))
  | 3 :: rest => (decBytes rest).map (fun p => (PKValue.vblob p.1, p.2))
  | _ => none

/-- Decoder for a known number of consecutive tagged values. -/
def pk_decode_list : Nat → Bytes → Option (List PKValue × Bytes)
  | 0, x => some ([], x)
  | n + 1, x =>
    match pk_decode_value x with
    | none => none
    | some (k, x1) =>
      match pk_decode_list n x1 with
      | none => none
      | some (ks, x2) => some (k :: ks, x2)

/-- Modelled from the spec: decoding an opaque primary-key byte sequence
back into its typed column values. -/
def cloudsync_pk_decode (b : Bytes) : Option (List PKValue) :=
  match decNat b with
  | none => none
  | some (n, rest) =>
    match pk_decode_list n rest with
    | none => none
    | some (ks, []) => some ks
    | some (_, _ :: _) => none

/-! ## Sample data used by the concrete instantiations -/
/-- A sample column record from site `[1]`. -/
def recA : ChangeRecord := ⟨[116], [49], 0, [99], [120], 1, 1, [1], 0⟩

/-- A sample column record for the same cell from site `[2]`, with the
same `col_version` and `dbversion` as `recA`. -/
def recB : ChangeRecord := ⟨[116], [49], 0, [99], [121], 1, 1, [2], 0⟩

/-- Stored column metadata at causal length 0. -/
def cellA : ColMeta := ⟨0, 1, 1, [1], [120], 0⟩

/-- A row holding `cellA` under column `[99]`, with no sentinel. -/
def rowA : RowState := ⟨none, fun c => if c = [99] then some cellA else none⟩

/-- A row whose sentinel is at causal length 1 (a re-inserted row). -/
def row3 : RowState := ⟨some ⟨1, 1, 2, [5], true, 1⟩, fun _ => none⟩

/-- A stale record carrying causal length 0 but very high
`col_version`/`dbversion`. -/
def staleRec : ChangeRecord := ⟨[116], [49], 0, [99], [120], 999, 999, [9], 0⟩

/-- A delete record (tombstone column marker and tombstone value). -/
def delRec : ChangeRecord :=
  ⟨[116], [49], 0, TOMBSTONE_VALUE, TOMBSTONE_VALUE, 2, 2, [1], 0⟩

/-- Stored column metadata of a later incarnation (causal length 1). -/
def cexCell : ColMeta := ⟨1, 1, 1, [1], [118], 0⟩

/-- A row of causal length 1 holding `cexCell` under column `[99]`. -/
def cexRow : RowState :=
  ⟨some ⟨1, 1, 1, [1], true, 0⟩, fun c => if c = [99] then some cexCell else none⟩

/-- A record for that cell from a superseded incarnation (causal length 0)
whose `(col_version, dbversion, site_id)` triple far exceeds the stored
one. -/
def cexRec : ChangeRecord := ⟨[116], [49], 0, [99], [122], 9, 9, [9], 0⟩

theorem natCmp_eq_iff {a b : Nat} : natCmp a b = .eq ↔ a = b := by
  unfold natCmp; split <;> rename_i h
  · simp; omega
  · split <;> rename_i h2
    · simp; omega
    · simp; omega

theorem natCmp_lt_iff {a b : Nat} : natCmp a b = .lt ↔ a < b := by
  unfold natCmp; split <;> rename_i h
  · simpa using h
  · split <;> simp <;> omega

theorem natCmp_gt_iff {a b : Nat} : natCmp a b = .gt ↔ b < a := by
  unfold natCmp; split <;> rename_i h
  · simp; omega
  · split <;> simp <;> omega

theorem natCmp_swap (a b : Nat) : natCmp b a = (natCmp a b).swap := by
  unfold natCmp; split <;> split <;> simp_all [Ordering.swap] <;> omega

theorem natCmp_lt_trans {a b c : Nat} (h1 : natCmp a b = .lt)
    (h2 : natCmp b c = .lt) : natCmp a c = .lt := by
  rw [natCmp_lt_iff] at *; omega

theorem bytesCmp_eq_iff : ∀ {a b : Bytes}, bytesCmp a b = .eq ↔ a = b := by
  intro a
  induction a with
  | nil => intro b; cases b <;> simp [bytesCmp]
  | cons x xs ih =>
    intro b
    cases b with
    | nil => simp [bytesCmp]
    | cons y ys =>
      simp only [bytesCmp]
      rcases h : natCmp x y with _ | _ | _
      · simp only [h]; rw [natCmp_lt_iff] at h; simp; omega
      · simp only [h]; rw [natCmp_eq_iff] at h; subst h; rw [ih]; simp
      · simp only [h]; rw [natCmp_gt_iff] at h; simp; omega

theorem bytesCmp_swap : ∀ (a b : Bytes), bytesCmp b a = (bytesCmp a b).swap := by
  intro a
  induction a with
  | nil => intro b; cases b <;> simp [bytesCmp, Ordering.swap]
  | cons x xs ih =>
    intro b
    cases b with
    | nil => simp [bytesCmp, Ordering.swap]
    | cons y ys =>
      simp only [bytesCmp, natCmp_swap x y]
      rcases h : natCmp x y with _ | _ | _ <;>
        simp only [h, Ordering.swap, ih ys] <;>
        rcases bytesCmp xs ys with _ | _ | _ <;> rfl

theorem bytesCmp_lt_trans : ∀ {a b c : Bytes}, bytesCmp a b = .lt →
    bytesCmp b c = .lt → bytesCmp a c = .lt := by
  intro a
  induction a with
  | nil =>
    intro b c h1 h2
    cases b with
    | nil => exact h2
    | cons y ys => cases c with
      | nil => simp [bytesCmp] at h2
      | cons z zs => simp [bytesCmp]
  | cons x xs ih =>
    intro b c h1 h2
    cases b with
    | nil => simp [bytesCmp] at h1
    | cons y ys =>
      cases c with
      | nil => simp [bytesCmp] at h2
      | cons z zs =>
        simp only [bytesCmp] at h1 h2 ⊢
        rcases hxy : natCmp x y with _ | _ | _ <;> rw [hxy] at h1 <;>
          rcases hyz : natCmp y z with _ | _ | _ <;> rw [hyz] at h2 <;>
          try simp_all
        · rw [natCmp_lt_trans hxy hyz]
        · rw [natCmp_eq_iff] at hyz; subst hyz; rw [hxy]
        · rw [natCmp_eq_iff] at hxy; subst hxy; rw [hyz]
        · rw [natCmp_eq_iff] at hxy; subst hxy; rw [hyz]; exact ih h1 h2

theorem bytesCmp_refl (a : Bytes) : bytesCmp a a = .eq :=
  bytesCmp_eq_iff.mpr rfl

/-- From two failed strict comparisons, byte sequences are equal. -/
theorem bytesCmp_connex {a b : Bytes} (h1 : bytesCmp a b ≠ .lt)
    (h2 : bytesCmp b a ≠ .lt) : a = b := by
  rw [bytesCmp_swap a b] at h2
  rcases h : bytesCmp a b with _ | _ | _
  · exact absurd h h1
  · exact bytesCmp_eq_iff.mp h
  · rw [h] at h2; simp [Ordering.swap] at h2

theorem Ordering.then_eq_lt {o p : Ordering} :
    o.then p = .lt ↔ o = .lt ∨ (o = .eq ∧ p = .lt) := by
  cases o <;> simp [Ordering.then]

theorem Ordering.then_eq_eq {o p : Ordering} :
    o.then p = .eq ↔ o = .eq ∧ p = .eq := by
  cases o <;> simp [Ordering.then]

theorem keyCmp_eq_iff {a b : MergeKey} : keyCmp a b = .eq ↔ a = b := by
  unfold keyCmp
  simp only [Ordering.then_eq_eq, natCmp_eq_iff, bytesCmp_eq_iff]
  constructor
  · rintro ⟨h1, h2, h3, h4⟩; cases a; cases b; simp_all
  · rintro rfl; simp

theorem keyCmp_refl (a : MergeKey) : keyCmp a a = .eq := keyCmp_eq_iff.mpr rfl

theorem keyCmp_swap (a b : MergeKey) : keyCmp b a = (keyCmp a b).swap := by
  unfold keyCmp
  rw [natCmp_swap a.cl, natCmp_swap a.col_version, natCmp_swap a.db_version,
    bytesCmp_swap a.site_id]
  rcases natCmp a.cl b.cl with _ | _ | _ <;>
    rcases natCmp a.col_version b.col_version with _ | _ | _ <;>
    rcases natCmp a.db_version b.db_version with _ | _ | _ <;>
    rcases bytesCmp a.site_id b.site_id with _ | _ | _ <;> rfl

theorem keyCmp_lt_trans {a b c : MergeKey} (h1 : keyCmp a b = .lt)
    (h2 : keyCmp b c = .lt) : keyCmp a c = .lt := by
  unfold keyCmp at *
  rw [Ordering.then_eq_lt] at h1 h2 ⊢
  rcases h1 with h1 | ⟨h1e, h1⟩
  · rcases h2 with h2 | ⟨h2e, h2⟩
    · exact Or.inl (natCmp_lt_trans h1 h2)
    · rw [natCmp_eq_iff] at h2e; rw [h2e] at h1; exact Or.inl h1
  · rcases h2 with h2 | ⟨h2e, h2⟩
    · rw [natCmp_eq_iff] at h1e; rw [← h1e] at h2; exact Or.inl h2
    · refine Or.inr ⟨?_, ?_⟩
      · rw [natCmp_eq_iff] at h1e h2e ⊢; omega
      · rw [Ordering.then_eq_lt] at h1 h2 ⊢
        rcases h1 with h1 | ⟨h1e, h1⟩
        · rcases h2 with h2 | ⟨h2e, h2⟩
          · exact Or.inl (natCmp_lt_trans h1 h2)
          · rw [natCmp_eq_iff] at h2e; rw [h2e] at h1; exact Or.inl h1
        · rcases h2 with h2 | ⟨h2e, h2⟩
          · rw [natCmp_eq_iff] at h1e; rw [← h1e] at h2; exact Or.inl h2
          · refine Or.inr ⟨?_, ?_⟩
            · rw [natCmp_eq_iff] at h1e h2e ⊢; omega
            · rw [Ordering.then_eq_lt] at h1 h2 ⊢
              rcases h1 with h1 | ⟨h1e, h1⟩
              · rcases h2 with h2 | ⟨h2e, h2⟩
                · exact Or.inl (natCmp_lt_trans h1 h2)
                · rw [natCmp_eq_iff] at h2e; rw [h2e] at h1; exact Or.inl h1
              · rcases h2 with h2 | ⟨h2e, h2⟩
                · rw [natCmp_eq_iff] at h1e; rw [← h1e] at h2; exact Or.inl h2
                · refine Or.inr ⟨?_, bytesCmp_lt_trans h1 h2⟩
                  rw [natCmp_eq_iff] at h1e h2e ⊢; omega

/-- Keys on which both strict comparisons fail are equal (connexity). -/
theorem keyCmp_connex {a b : MergeKey} (h1 : keyCmp a b ≠ .lt)
    (h2 : keyCmp b a ≠ .lt) : a = b := by
  rw [keyCmp_swap a b] at h2
  rcases h : keyCmp a b with _ | _ | _
  · exact absurd h h1
  · exact keyCmp_eq_iff.mp h
  · rw [h] at h2; simp [Ordering.swap] at h2

theorem keyCmp_asymm {a b : MergeKey} (h : keyCmp a b = .lt) :
    keyCmp b a ≠ .lt := by
  rw [keyCmp_swap a b, h]; simp [Ordering.swap]

/-- A lexicographically smaller key has a causal length no larger
(the first component of the lexicographic comparison). -/
theorem keyCmp_lt_cl_le {a b : MergeKey} (h : keyCmp a b = .lt) :
    a.cl ≤ b.cl := by
  unfold keyCmp at h
  rw [Ordering.then_eq_lt] at h
  rcases h with h | ⟨he, _⟩
  · rw [natCmp_lt_iff] at h; omega
  · rw [natCmp_eq_iff] at he; omega

/-- A strictly smaller causal length forces a lexicographically smaller key
(causal length is compared first). -/
theorem keyCmp_lt_of_cl_lt {a b : MergeKey} (h : a.cl < b.cl) :
    keyCmp a b = .lt := by
  unfold keyCmp
  rw [Ordering.then_eq_lt]
  exact Or.inl (natCmp_lt_iff.mpr h)

theorem keyCmp_not_lt_of {sn k1 k2 : MergeKey} (h1 : keyCmp sn k2 ≠ .lt)
    (h2 : keyCmp sn k1 = .lt) : keyCmp k1 k2 ≠ .lt :=
  fun h => h1 (keyCmp_lt_trans h2 h)

/-- The nested decision rules compute exactly the lexicographic comparison
of merge keys. -/
theorem mergeWins_iff {s i : MergeKey} :
    mergeWins s i = true ↔ keyCmp s i = .lt := by
  unfold mergeWins keyCmp
  simp only [Ordering.then_eq_lt, natCmp_lt_iff, natCmp_eq_iff, beq_iff_eq]
  split_ifs with h1 h2 h3 h4 h5 h6
  · simp only [true_iff]; exact Or.inl h1
  · simp only [false_iff]; rintro (h | ⟨he, -⟩) <;> omega
  · simp only [true_iff]; exact Or.inr ⟨by omega, Or.inl h3⟩
  · simp only [false_iff]; rintro (h | ⟨he, h | ⟨he2, -⟩⟩) <;> omega
  · simp only [true_iff]; exact Or.inr ⟨by omega, Or.inr ⟨by omega, Or.inl h5⟩⟩
  · simp only [false_iff]
    rintro (h | ⟨he, h | ⟨he2, h | ⟨he3, -⟩⟩⟩) <;> omega
  · rcases hb : bytesCmp s.site_id i.site_id with _ | _ | _
    · constructor
      · intro _
        exact Or.inr ⟨by omega, Or.inr ⟨by omega, Or.inr ⟨by omega, rfl⟩⟩⟩
      · intro _; rfl
    · constructor
      · intro h; exact absurd h (by decide)
      · rintro (h | ⟨he, h | ⟨he2, h | ⟨he3, hlt⟩⟩⟩)
        · omega
        · omega
        · omega
        · exact absurd hlt (by decide)
    · constructor
      · intro h; exact absurd h (by decide)
      · rintro (h | ⟨he, h | ⟨he2, h | ⟨he3, hlt⟩⟩⟩)
        · omega
        · omega
        · omega
        · exact absurd hlt (by decide)

theorem mergeWins_eq_false {s i : MergeKey} :
    mergeWins s i = false ↔ keyCmp s i ≠ .lt := by
  rw [← Bool.not_eq_true, not_iff_not]; exact mergeWins_iff

theorem RowState.ext' {a b : RowState} (h1 : a.sentinel = b.sentinel)
    (h2 : ∀ c, a.cols c = b.cols c) : a = b := by
  cases a; cases b
  simp only [RowState.mk.injEq]
  exact ⟨h1, funext h2⟩

theorem ChangeRecord.toSentinel_mkey (r : ChangeRecord) :
    r.toSentinel.mkey = r.mkey := rfl

theorem ChangeRecord.toColMeta_mkey (r : ChangeRecord) :
    r.toColMeta.mkey = r.mkey := rfl

theorem ChangeRecord.mkey_ne_of_site {r1 r2 : ChangeRecord}
    (h : r1.site_id ≠ r2.site_id) : r1.mkey ≠ r2.mkey := by
  intro he
  exact h (congrArg MergeKey.site_id he)

theorem applyColRecord_sentinel (row : RowState) (r : ChangeRecord) :
    (applyColRecord row r).sentinel = row.sentinel := by
  unfold applyColRecord; split <;> rfl

theorem merge_decision_sentinel_congr {a b : RowState}
    (h : a.sentinel = b.sentinel) (t : ChangeRecord) :
    merge_decision_sentinel a t = merge_decision_sentinel b t := by
  unfold merge_decision_sentinel; rw [h]

theorem merge_decision_sentinel_none {row : RowState} (h : row.sentinel = none)
    (t : ChangeRecord) : merge_decision_sentinel row t = true := by
  unfold merge_decision_sentinel; rw [h]

theorem merge_decision_sentinel_some {row : RowState} {sn : Sentinel}
    (h : row.sentinel = some sn) (t : ChangeRecord) :
    merge_decision_sentinel row t = mergeWins sn.mkey t.mkey := by
  unfold merge_decision_sentinel; rw [h]

theorem keyCmp_gt_iff {a b : MergeKey} : keyCmp a b = .gt ↔ keyCmp b a = .lt := by
  rw [keyCmp_swap a b]
  cases h : keyCmp a b <;> simp [h, Ordering.swap]

/-- Dropping superseded metadata at a lower threshold first is absorbed by
dropping at a higher threshold. -/
theorem clearCols_clearCols {a b : Nat} (cols : Bytes → Option ColMeta)
    (h : a ≤ b) : clearCols (clearCols cols a) b = clearCols cols b := by
  funext c
  rcases hc : cols c with _ | cm
  · simp [clearCols, hc]
  · by_cases h1 : cm.cl < a
    · simp [clearCols, hc, h1, show cm.cl < b by omega]
    · by_cases h2 : cm.cl < b <;> simp [clearCols, hc, h1, h2]

theorem applySentinelRecord_acc {row : RowState} {t : ChangeRecord}
    (h : merge_decision_sentinel row t = true) :
    applySentinelRecord row t = ⟨some t.toSentinel, clearCols row.cols t.cl⟩ := by
  unfold applySentinelRecord; rw [if_pos h]

theorem applySentinelRecord_rej {row : RowState} {t : ChangeRecord}
    (h : merge_decision_sentinel row t = false) :
    applySentinelRecord row t = row := by
  unfold applySentinelRecord; rw [if_neg (by simp [h])]

theorem merge_decision_sentinel_mk (t t' : ChangeRecord)
    (X : Bytes → Option ColMeta) :
    merge_decision_sentinel ⟨some t.toSentinel, X⟩ t' =
      mergeWins t.mkey t'.mkey := by
  rw [merge_decision_sentinel_some rfl, ChangeRecord.toSentinel_mkey]

/-- Structural records with distinct merge keys commute on a row: the
sentinel converges to the lexicographically largest key and the dropping
of superseded column metadata is order-insensitive. -/
theorem applySentinelRecord_comm (row : RowState) {t1 t2 : ChangeRecord}
    (hk : t1.mkey ≠ t2.mkey) :
    applySentinelRecord (applySentinelRecord row t1) t2 =
      applySentinelRecord (applySentinelRecord row t2) t1 := by
  rcases hd1 : merge_decision_sentinel row t1 with _ | _ <;>
    rcases hd2 : merge_decision_sentinel row t2 with _ | _
  · -- both rejected
    rw [applySentinelRecord_rej hd1, applySentinelRecord_rej hd2,
      applySentinelRecord_rej hd1]
  · -- t1 rejected, t2 accepted
    rcases hsn : row.sentinel with _ | sn
    · rw [merge_decision_sentinel_none hsn] at hd1; cases hd1
    · have hw1 : keyCmp sn.mkey t1.mkey ≠ .lt := by
        rw [merge_decision_sentinel_some hsn] at hd1
        exact mergeWins_eq_false.mp hd1
      have hw2 : keyCmp sn.mkey t2.mkey = .lt := by
        rw [merge_decision_sentinel_some hsn] at hd2
        exact mergeWins_iff.mp hd2
      have hno : keyCmp t2.mkey t1.mkey ≠ .lt := keyCmp_not_lt_of hw1 hw2
      rw [applySentinelRecord_rej hd1, applySentinelRecord_acc hd2,
        applySentinelRecord_rej
          (by rw [merge_decision_sentinel_mk]; exact mergeWins_eq_false.mpr hno)]
  · -- t1 accepted, t2 rejected
    rcases hsn : row.sentinel with _ | sn
    · rw [merge_decision_sentinel_none hsn] at hd2; cases hd2
    · have hw2 : keyCmp sn.mkey t2.mkey ≠ .lt := by
        rw [merge_decision_sentinel_some hsn] at hd2
        exact mergeWins_eq_false.mp hd2
      have hw1 : keyCmp sn.mkey t1.mkey = .lt := by
        rw [merge_decision_sentinel_some hsn] at hd1
        exact mergeWins_iff.mp hd1
      have hno : keyCmp t1.mkey t2.mkey ≠ .lt := keyCmp_not_lt_of hw2 hw1
      rw [applySentinelRecord_acc hd1, applySentinelRecord_rej hd2,
        applySentinelRecord_rej
          (by rw [merge_decision_sentinel_mk]; exact mergeWins_eq_false.mpr hno),
        applySentinelRecord_acc hd1]
  · -- both accepted over the old sentinel: the larger key prevails
    rcases htri : keyCmp t1.mkey t2.mkey with _ | _ | _
    · -- t1 < t2
      have hcl : t1.cl ≤ t2.cl := keyCmp_lt_cl_le htri
      have hno : keyCmp t2.mkey t1.mkey ≠ .lt := keyCmp_asymm htri
      rw [applySentinelRecord_acc hd1, applySentinelRecord_acc hd2,
        applySentinelRecord_acc
          (by rw [merge_decision_sentinel_mk]; exact mergeWins_iff.mpr htri),
        applySentinelRecord_rej
          (by rw [merge_decision_sentinel_mk]; exact mergeWins_eq_false.mpr hno)]
      exact RowState.ext' rfl (fun c => by
        rw [show (RowState.mk (some t2.toSentinel)
          (clearCols (clearCols row.cols t1.cl) t2.cl)).cols =
          clearCols (clearCols row.cols t1.cl) t2.cl from rfl,
          clearCols_clearCols _ hcl])
    · exact absurd (keyCmp_eq_iff.mp htri) hk
    · -- t2 < t1 (mirror)
      have htri' : keyCmp t2.mkey t1.mkey = .lt := keyCmp_gt_iff.mp htri
      have hcl : t2.cl ≤ t1.cl := keyCmp_lt_cl_le htri'
      have hno : keyCmp t1.mkey t2.mkey ≠ .lt := keyCmp_asymm htri'
      rw [applySentinelRecord_acc hd1, applySentinelRecord_acc hd2,
        applySentinelRecord_rej
          (by rw [merge_decision_sentinel_mk]; exact mergeWins_eq_false.mpr hno),
        applySentinelRecord_acc
          (by rw [merge_decision_sentinel_mk]; exact mergeWins_iff.mpr htri')]
      exact RowState.ext' rfl (fun c => by
        rw [show (RowState.mk (some t1.toSentinel)
          (clearCols (clearCols row.cols t2.cl) t1.cl)).cols =
          clearCols (clearCols row.cols t2.cl) t1.cl from rfl,
          clearCols_clearCols _ hcl])

theorem applyColRecord_acc {row : RowState} {r : ChangeRecord}
    (h : merge_decision_col row r = true) :
    applyColRecord row r = ⟨row.sentinel, updateCol row.cols r⟩ := by
  unfold applyColRecord; rw [if_pos h]

theorem applyColRecord_rej {row : RowState} {r : ChangeRecord}
    (h : merge_decision_col row r = false) :
    applyColRecord row r = row := by
  unfold applyColRecord; rw [if_neg (by simp [h])]

theorem merge_decision_col_gate_false {row : RowState} {r : ChangeRecord}
    (hg : r.cl < row.scl) : merge_decision_col row r = false := by
  unfold merge_decision_col; rw [if_pos hg]

theorem merge_decision_col_none {row : RowState} {r : ChangeRecord}
    (hg : ¬ r.cl < row.scl) (hc : row.cols r.colname = none) :
    merge_decision_col row r = true := by
  unfold merge_decision_col; rw [if_neg hg, hc]

theorem merge_decision_col_some {row : RowState} {r : ChangeRecord}
    {c : ColMeta} (hg : ¬ r.cl < row.scl) (hc : row.cols r.colname = some c) :
    merge_decision_col row r = mergeWins c.mkey r.mkey := by
  unfold merge_decision_col; rw [if_neg hg, hc]

theorem merge_decision_col_gate {row : RowState} {r : ChangeRecord}
    (h : merge_decision_col row r = true) : ¬ r.cl < row.scl := by
  intro hg
  rw [merge_decision_col_gate_false hg] at h
  cases h

theorem merge_decision_col_congr {a b : RowState} (r : ChangeRecord)
    (h1 : a.scl = b.scl) (h2 : a.cols r.colname = b.cols r.colname) :
    merge_decision_col a r = merge_decision_col b r := by
  unfold merge_decision_col; rw [h1, h2]

theorem updateCol_same {cols : Bytes → Option ColMeta} {r : ChangeRecord} :
    updateCol cols r r.colname = some r.toColMeta := by
  unfold updateCol; rw [if_pos rfl]

theorem updateCol_ne {cols : Bytes → Option ColMeta} {r : ChangeRecord}
    {c : Bytes} (h : c ≠ r.colname) : updateCol cols r c = cols c := by
  unfold updateCol; rw [if_neg h]

theorem updateCol_updateCol_same {cols : Bytes → Option ColMeta}
    {r1 r2 : ChangeRecord} (hcn : r1.colname = r2.colname) :
    updateCol (updateCol cols r1) r2 = updateCol cols r2 := by
  funext c
  by_cases h : c = r2.colname
  · unfold updateCol; rw [if_pos h, if_pos h]
  · rw [updateCol_ne h, updateCol_ne h, updateCol_ne (hcn ▸ h)]

theorem updateCol_updateCol_ne {cols : Bytes → Option ColMeta}
    {r1 r2 : ChangeRecord} (hcn : r1.colname ≠ r2.colname) :
    updateCol (updateCol cols r1) r2 = updateCol (updateCol cols r2) r1 := by
  funext c
  by_cases h2 : c = r2.colname
  · subst h2
    rw [updateCol_same, updateCol_ne (fun h => hcn h.symm), updateCol_same]
  · rw [updateCol_ne h2]
    by_cases h1 : c = r1.colname
    · subst h1; rw [updateCol_same, updateCol_same]
    · rw [updateCol_ne h1, updateCol_ne h1, updateCol_ne h2]

/-- Ordinary column records with distinct merge keys commute on a row:
rules 1–4 select the same surviving value for the shared cell in either
order, and distinct columns are independent (column-level granularity). -/
theorem applyColRecord_comm (row : RowState) {r1 r2 : ChangeRecord}
    (hk : r1.mkey ≠ r2.mkey) :
    applyColRecord (applyColRecord row r1) r2 =
      applyColRecord (applyColRecord row r2) r1 := by
  rcases hd1 : merge_decision_col row r1 with _ | _ <;>
    rcases hd2 : merge_decision_col row r2 with _ | _
  · -- both rejected
    rw [applyColRecord_rej hd1, applyColRecord_rej hd2, applyColRecord_rej hd1]
  · -- r1 rejected against the original row, r2 accepted
    have hx : merge_decision_col ⟨row.sentinel, updateCol row.cols r2⟩ r1 = false := by
      by_cases hg : r1.cl < row.scl
      · exact merge_decision_col_gate_false (hg : r1.cl < row.scl)
      · have hg' : ¬ r1.cl <
            RowState.scl ⟨row.sentinel, updateCol row.cols r2⟩ := hg
        unfold merge_decision_col at hd1
        rw [if_neg hg] at hd1
        rcases hc1 : row.cols r1.colname with _ | c1
        · rw [hc1] at hd1; cases hd1
        · rw [hc1] at hd1
          by_cases hcn : r1.colname = r2.colname
          · have hc2 : row.cols r2.colname = some c1 := by rw [← hcn]; exact hc1
            have hg2 : ¬ r2.cl < row.scl := merge_decision_col_gate hd2
            have hw2 : keyCmp c1.mkey r2.mkey = .lt := by
              rw [merge_decision_col_some hg2 hc2] at hd2
              exact mergeWins_iff.mp hd2
            have hw1 : keyCmp c1.mkey r1.mkey ≠ .lt := mergeWins_eq_false.mp hd1
            have hno : keyCmp r2.mkey r1.mkey ≠ .lt := keyCmp_not_lt_of hw1 hw2
            rw [merge_decision_col_some hg'
              (show (RowState.mk row.sentinel (updateCol row.cols r2)).cols
                  r1.colname = some r2.toColMeta by
                rw [show (RowState.mk row.sentinel (updateCol row.cols r2)).cols
                  = updateCol row.cols r2 from rfl, hcn, updateCol_same]),
              ChangeRecord.toColMeta_mkey]
            exact mergeWins_eq_false.mpr hno
          · rw [merge_decision_col_some (c := c1) hg'
              (show (RowState.mk row.sentinel (updateCol row.cols r2)).cols
                  r1.colname = some c1 by
                rw [show (RowState.mk row.sentinel (updateCol row.cols r2)).cols
                  = updateCol row.cols r2 from rfl, updateCol_ne hcn]
                exact hc1)]
            exact hd1
    rw [applyColRecord_rej hd1, applyColRecord_acc hd2, applyColRecord_rej hx]
  · -- r1 accepted, r2 rejected against the original row
    have hx : merge_decision_col ⟨row.sentinel, updateCol row.cols r1⟩ r2 = false := by
      by_cases hg : r2.cl < row.scl
      · exact merge_decision_col_gate_false (hg : r2.cl < row.scl)
      · have hg' : ¬ r2.cl <
            RowState.scl ⟨row.sentinel, updateCol row.cols r1⟩ := hg
        unfold merge_decision_col at hd2
        rw [if_neg hg] at hd2
        rcases hc2 : row.cols r2.colname with _ | c2
        · rw [hc2] at hd2; cases hd2
        · rw [hc2] at hd2
          by_cases hcn : r2.colname = r1.colname
          · have hc1 : row.cols r1.colname = some c2 := by rw [← hcn]; exact hc2
            have hg1 : ¬ r1.cl < row.scl := merge_decision_col_gate hd1
            have hw1 : keyCmp c2.mkey r1.mkey = .lt := by
              rw [merge_decision_col_some hg1 hc1] at hd1
              exact mergeWins_iff.mp hd1
            have hw2 : keyCmp c2.mkey r2.mkey ≠ .lt := mergeWins_eq_false.mp hd2
            have hno : keyCmp r1.mkey r2.mkey ≠ .lt := keyCmp_not_lt_of hw2 hw1
            rw [merge_decision_col_some hg'
              (show (RowState.mk row.sentinel (updateCol row.cols r1)).cols
                  r2.colname = some r1.toColMeta by
                rw [show (RowState.mk row.sentinel (updateCol row.cols r1)).cols
                  = updateCol row.cols r1 from rfl, hcn, updateCol_same]),
              ChangeRecord.toColMeta_mkey]
            exact mergeWins_eq_false.mpr hno
          · rw [merge_decision_col_some (c := c2) hg'
              (show (RowState.mk row.sentinel (updateCol row.cols r1)).cols
                  r2.colname = some c2 by
                rw [show (RowState.mk row.sentinel (updateCol row.cols r1)).cols
                  = updateCol row.cols r1 from rfl, updateCol_ne hcn]
                exact hc2)]
            exact hd2
    rw [applyColRecord_acc hd1, applyColRecord_rej hd2, applyColRecord_rej hx,
      applyColRecord_acc hd1]
  · -- both accepted against the original row
    by_cases hcn : r1.colname = r2.colname
    · have hg1 : ¬ r1.cl < row.scl := merge_decision_col_gate hd1
      have hg2 : ¬ r2.cl < row.scl := merge_decision_col_gate hd2
      rcases htri : keyCmp r1.mkey r2.mkey with _ | _ | _
      · -- r1 < r2: r2 survives in either order
        have hy : merge_decision_col ⟨row.sentinel, updateCol row.cols r1⟩ r2 = true := by
          have hga : ¬ r2.cl <
              RowState.scl ⟨row.sentinel, updateCol row.cols r1⟩ := hg2
          rw [merge_decision_col_some hga
            (show (RowState.mk row.sentinel (updateCol row.cols r1)).cols
                r2.colname = some r1.toColMeta by
              rw [show (RowState.mk row.sentinel (updateCol row.cols r1)).cols
                = updateCol row.cols r1 from rfl, ← hcn, updateCol_same]),
            ChangeRecord.toColMeta_mkey]
          exact mergeWins_iff.mpr htri
        have hn : merge_decision_col ⟨row.sentinel, updateCol row.cols r2⟩ r1 = false := by
          have hga : ¬ r1.cl <
              RowState.scl ⟨row.sentinel, updateCol row.cols r2⟩ := hg1
          rw [merge_decision_col_some hga
            (show (RowState.mk row.sentinel (updateCol row.cols r2)).cols
                r1.colname = some r2.toColMeta by
              rw [show (RowState.mk row.sentinel (updateCol row.cols r2)).cols
                = updateCol row.cols r2 from rfl, hcn, updateCol_same]),
            ChangeRecord.toColMeta_mkey]
          exact mergeWins_eq_false.mpr (keyCmp_asymm htri)
        rw [applyColRecord_acc hd1, applyColRecord_acc hd2, applyColRecord_acc hy,
          applyColRecord_rej hn]
        exact RowState.ext' rfl (fun c => congrFun (updateCol_updateCol_same hcn) c)
      · exact absurd (keyCmp_eq_iff.mp htri) hk
      · -- r2 < r1: r1 survives in either order
        have htri' : keyCmp r2.mkey r1.mkey = .lt := keyCmp_gt_iff.mp htri
        have hy : merge_decision_col ⟨row.sentinel, updateCol row.cols r2⟩ r1 = true := by
          have hga : ¬ r1.cl <
              RowState.scl ⟨row.sentinel, updateCol row.cols r2⟩ := hg1
          rw [merge_decision_col_some hga
            (show (RowState.mk row.sentinel (updateCol row.cols r2)).cols
                r1.colname = some r2.toColMeta by
              rw [show (RowState.mk row.sentinel (updateCol row.cols r2)).cols
                = updateCol row.cols r2 from rfl, hcn, updateCol_same]),
            ChangeRecord.toColMeta_mkey]
          exact mergeWins_iff.mpr htri'
        have hn : merge_decision_col ⟨row.sentinel, updateCol row.cols r1⟩ r2 = false := by
          have hga : ¬ r2.cl <
              RowState.scl ⟨row.sentinel, updateCol row.cols r1⟩ := hg2
          rw [merge_decision_col_some hga
            (show (RowState.mk row.sentinel (updateCol row.cols r1)).cols
                r2.colname = some r1.toColMeta by
              rw [show (RowState.mk row.sentinel (updateCol row.cols r1)).cols
                = updateCol row.cols r1 from rfl, ← hcn, updateCol_same]),
            ChangeRecord.toColMeta_mkey]
          exact mergeWins_eq_false.mpr (keyCmp_asymm htri')
        rw [applyColRecord_acc hd1, applyColRecord_acc hd2, applyColRecord_rej hn,
          applyColRecord_acc hy]
        exact RowState.ext' rfl
          (fun c => (congrFun (updateCol_updateCol_same hcn.symm) c).symm)
    · -- distinct columns: the two cells are independent
      have e2 : merge_decision_col ⟨row.sentinel, updateCol row.cols r1⟩ r2 =
          merge_decision_col row r2 :=
        merge_decision_col_congr r2 rfl (updateCol_ne (fun h => hcn h.symm))
      have e1 : merge_decision_col ⟨row.sentinel, updateCol row.cols r2⟩ r1 =
          merge_decision_col row r1 :=
        merge_decision_col_congr r1 rfl (updateCol_ne hcn)
      rw [applyColRecord_acc hd1, applyColRecord_acc hd2,
        applyColRecord_acc (by rw [e2]; exact hd2),
        applyColRecord_acc (by rw [e1]; exact hd1)]
      exact RowState.ext' rfl (fun c => congrFun (updateCol_updateCol_ne hcn) c)

theorem ChangeRecord.toColMeta_cl (r : ChangeRecord) : r.toColMeta.cl = r.cl :=
  rfl

theorem ChangeRecord.toSentinel_cl (r : ChangeRecord) :
    r.toSentinel.cl = r.cl := rfl

theorem clearCols_eval (cols : Bytes → Option ColMeta) (cl : Nat) (c : Bytes) :
    clearCols cols cl c =
      match cols c with
      | none => none
      | some cm => if cm.cl < cl then none else some cm := rfl

theorem scl_some {sn : Sentinel} {X : Bytes → Option ColMeta} :
    RowState.scl ⟨some sn, X⟩ = sn.cl := rfl

/-- Updating a column with a record whose causal length survives the clear
threshold commutes with the clear. -/
theorem clearCols_updateCol {cols : Bytes → Option ColMeta}
    {r : ChangeRecord} {cl : Nat} (h : ¬ r.cl < cl) :
    clearCols (updateCol cols r) cl = updateCol (clearCols cols cl) r := by
  funext c
  by_cases hc : c = r.colname
  · subst hc
    rw [clearCols_eval, updateCol_same, updateCol_same]
    show (if r.toColMeta.cl < cl then none else some r.toColMeta) = _
    rw [ChangeRecord.toColMeta_cl, if_neg h]
  · rw [updateCol_ne hc, clearCols_eval, clearCols_eval, updateCol_ne hc]

/-- Updating a column with a record of a superseded causal length is wiped
out by the clear when the stored metadata was superseded as well. -/
theorem clearCols_updateCol_drop {cols : Bytes → Option ColMeta}
    {r : ChangeRecord} {cl : Nat} (h : r.cl < cl)
    (hold : ∀ cm, cols r.colname = some cm → cm.cl < cl) :
    clearCols (updateCol cols r) cl = clearCols cols cl := by
  funext c
  by_cases hc : c = r.colname
  · subst hc
    rw [clearCols_eval, updateCol_same, clearCols_eval]
    show (if r.toColMeta.cl < cl then none else some r.toColMeta) = _
    rw [ChangeRecord.toColMeta_cl, if_pos h]
    rcases hg : cols r.colname with _ | cm
    · rfl
    · show none = (if cm.cl < cl then none else some cm)
      rw [if_pos (hold cm hg)]
  · rw [clearCols_eval, updateCol_ne hc, clearCols_eval]

/-- A column record and a structural record always commute on a row: the
causal-length gate, the clearing of superseded metadata and the per-cell
comparison select the same outcome in either order. -/
theorem applyColRecord_applySentinelRecord_comm (row : RowState)
    (r t : ChangeRecord) :
    applySentinelRecord (applyColRecord row r) t =
      applyColRecord (applySentinelRecord row t) r := by
  rcases hdt : merge_decision_sentinel row t with _ | _
  · -- structural record rejected: the sentinel is unchanged either way
    have e : merge_decision_sentinel (applyColRecord row r) t = false := by
      rw [merge_decision_sentinel_congr (applyColRecord_sentinel row r) t]
      exact hdt
    rw [applySentinelRecord_rej e, applySentinelRecord_rej hdt]
  · have e : merge_decision_sentinel (applyColRecord row r) t = true := by
      rw [merge_decision_sentinel_congr (applyColRecord_sentinel row r) t]
      exact hdt
    rw [applySentinelRecord_acc e, applySentinelRecord_acc hdt]
    by_cases hg : r.cl < row.scl
    · -- the column record is gated out by the old sentinel, hence also
      -- by the new one (whose causal length is at least as large)
      have hA : applyColRecord row r = row :=
        applyColRecord_rej (merge_decision_col_gate_false hg)
      rcases hsn : row.sentinel with _ | sn
      · have h0 : row.scl = 0 := by unfold RowState.scl; rw [hsn]
        rw [h0] at hg; omega
      · have hw : keyCmp sn.mkey t.mkey = .lt := by
          rw [merge_decision_sentinel_some hsn] at hdt
          exact mergeWins_iff.mp hdt
        have hcl : sn.mkey.cl ≤ t.mkey.cl := keyCmp_lt_cl_le hw
        have hscl : row.scl = sn.cl := by unfold RowState.scl; rw [hsn]
        have hgate2 : r.cl <
            RowState.scl ⟨some t.toSentinel, clearCols row.cols t.cl⟩ := by
          rw [scl_some, ChangeRecord.toSentinel_cl]
          rw [hscl] at hg
          exact Nat.lt_of_lt_of_le hg hcl
        rw [hA, applyColRecord_rej (merge_decision_col_gate_false hgate2)]
    · by_cases hg2 : r.cl < t.cl
      · -- the record's incarnation is superseded by the new sentinel
        have hgate2 : r.cl <
            RowState.scl ⟨some t.toSentinel, clearCols row.cols t.cl⟩ := by
          rw [scl_some, ChangeRecord.toSentinel_cl]; exact hg2
        rw [applyColRecord_rej (merge_decision_col_gate_false hgate2)]
        refine RowState.ext' rfl ?_
        intro c
        rcases hdr : merge_decision_col row r with _ | _
        · rw [applyColRecord_rej hdr]
        · rw [applyColRecord_acc hdr]
          show clearCols (updateCol row.cols r) t.cl c = clearCols row.cols t.cl c
          refine congrFun (clearCols_updateCol_drop hg2 ?_) c
          intro cm hcm
          rw [merge_decision_col_some hg hcm] at hdr
          have hlt := mergeWins_iff.mp hdr
          have hle : cm.cl ≤ r.cl := keyCmp_lt_cl_le hlt
          show cm.cl < t.cl
          omega
      · -- the record survives the new sentinel's gate on both sides
        rcases hmem : row.cols r.colname with _ | cm
        · have hd : merge_decision_col row r = true :=
            merge_decision_col_none hg hmem
          have hd' : merge_decision_col
              ⟨some t.toSentinel, clearCols row.cols t.cl⟩ r = true := by
            apply merge_decision_col_none
            · rw [scl_some, ChangeRecord.toSentinel_cl]; exact hg2
            · show clearCols row.cols t.cl r.colname = none
              rw [clearCols_eval, hmem]
          rw [applyColRecord_acc hd, applyColRecord_acc hd']
          exact RowState.ext' rfl (fun c => congrFun (clearCols_updateCol hg2) c)
        · by_cases hcm : cm.cl < t.cl
          · -- the stored metadata is superseded and will be cleared
            have hd : merge_decision_col row r = true := by
              rw [merge_decision_col_some hg hmem]
              exact mergeWins_iff.mpr (keyCmp_lt_of_cl_lt
                (show cm.mkey.cl < r.mkey.cl from by
                  show cm.cl < r.cl; omega))
            have hd' : merge_decision_col
                ⟨some t.toSentinel, clearCols row.cols t.cl⟩ r = true := by
              apply merge_decision_col_none
              · rw [scl_some, ChangeRecord.toSentinel_cl]; exact hg2
              · show clearCols row.cols t.cl r.colname = none
                rw [clearCols_eval, hmem]
                exact if_pos hcm
            rw [applyColRecord_acc hd, applyColRecord_acc hd']
            exact RowState.ext' rfl
              (fun c => congrFun (clearCols_updateCol hg2) c)
          · -- the stored metadata survives the clear: identical decisions
            have hg' : ¬ r.cl <
                RowState.scl ⟨some t.toSentinel, clearCols row.cols t.cl⟩ := by
              rw [scl_some, ChangeRecord.toSentinel_cl]; exact hg2
            have hc'' : (RowState.mk (some t.toSentinel)
                (clearCols row.cols t.cl)).cols r.colname = some cm := by
              show clearCols row.cols t.cl r.colname = some cm
              rw [clearCols_eval, hmem]
              exact if_neg hcm
            have hsame : merge_decision_col
                ⟨some t.toSentinel, clearCols row.cols t.cl⟩ r =
                merge_decision_col row r := by
              rw [merge_decision_col_some hg' hc'',
                merge_decision_col_some hg hmem]
            rcases hdr : merge_decision_col row r with _ | _
            · rw [applyColRecord_rej hdr,
                applyColRecord_rej (by rw [hsame]; exact hdr)]
            · rw [applyColRecord_acc hdr,
                applyColRecord_acc (by rw [hsame]; exact hdr)]
              exact RowState.ext' rfl
                (fun c => congrFun (clearCols_updateCol hg2) c)

theorem applyRow_sent {row : RowState} {r : ChangeRecord}
    (h : r.isSentinel = true) : applyRow row r = applySentinelRecord row r := by
  unfold applyRow; rw [if_pos h]

theorem applyRow_col {row : RowState} {r : ChangeRecord}
    (h : r.isSentinel = false) : applyRow row r = applyColRecord row r := by
  unfold applyRow; rw [if_neg (by simp [h])]

/-- Change records from distinct sites commute on a row. -/
theorem applyRow_comm (row : RowState) {r1 r2 : ChangeRecord}
    (h : r1.site_id ≠ r2.site_id) :
    applyRow (applyRow row r1) r2 = applyRow (applyRow row r2) r1 := by
  have hk : r1.mkey ≠ r2.mkey := ChangeRecord.mkey_ne_of_site h
  rcases h1 : r1.isSentinel with _ | _ <;> rcases h2 : r2.isSentinel with _ | _
  · simp only [applyRow_col h1, applyRow_col h2]
    exact applyColRecord_comm row hk
  · simp only [applyRow_col h1, applyRow_sent h2]
    exact applyColRecord_applySentinelRecord_comm row r1 r2
  · simp only [applyRow_sent h1, applyRow_col h2]
    exact (applyColRecord_applySentinelRecord_comm row r2 r1).symm
  · simp only [applyRow_sent h1, applyRow_sent h2]
    exact applySentinelRecord_comm row hk

/-- Change records from distinct sites commute on the whole replica. -/
theorem applyRecord_comm (s : ReplicaState) {r1 r2 : ChangeRecord}
    (h : r1.site_id ≠ r2.site_id) :
    applyRecord (applyRecord s r1) r2 = applyRecord (applyRecord s r2) r1 := by
  funext key
  unfold applyRecord
  split_ifs with hA hB hB
  · exact applyRow_comm (s key) h
  · rfl
  · rfl
  · rfl

theorem payload_apply_records_cons (s : ReplicaState) (r : ChangeRecord)
    (rs : List ChangeRecord) :
    payload_apply_records s (r :: rs) =
      payload_apply_records (applyRecord s r) rs := rfl

/-- A record from a site foreign to a record list can be pulled through
the whole list. -/
theorem applyRecord_payload_comm (rs : List ChangeRecord) (r : ChangeRecord)
    (h : ∀ x ∈ rs, x.site_id ≠ r.site_id) (s : ReplicaState) :
    payload_apply_records (applyRecord s r) rs =
      applyRecord (payload_apply_records s rs) r := by
  induction rs generalizing s with
  | nil => rfl
  | cons x xs ih =>
    rw [payload_apply_records_cons, payload_apply_records_cons,
      applyRecord_comm s (Ne.symm (h x (List.mem_cons_self x xs)))]
    exact ih (fun y hy => h y (List.mem_cons_of_mem _ hy)) (applyRecord s x)

/-- Record lists from disjoint sites commute on the whole replica. -/
theorem payload_apply_records_comm (s : ReplicaState)
    (P1 P2 : List ChangeRecord)
    (h : ∀ r1 ∈ P1, ∀ r2 ∈ P2, r1.site_id ≠ r2.site_id) :
    payload_apply_records (payload_apply_records s P1) P2 =
      payload_apply_records (payload_apply_records s P2) P1 := by
  induction P1 generalizing s with
  | nil => rfl
  | cons x xs ih =>
    rw [payload_apply_records_cons,
      ih (applyRecord s x) (fun r1 h1 r2 h2 => h r1 (List.mem_cons_of_mem _ h1) r2 h2),
      payload_apply_records_cons,
      applyRecord_payload_comm P2 x
        (fun y hy => Ne.symm (h x (List.mem_cons_self x xs) y hy)) s]

theorem keyCmp_not_lt_cl_le {a b : MergeKey} (h : keyCmp a b ≠ .lt) :
    b.cl ≤ a.cl := by
  rcases htr : keyCmp a b with _ | _ | _
  · exact absurd htr h
  · rw [keyCmp_eq_iff.mp htr]
  · exact keyCmp_lt_cl_le (keyCmp_gt_iff.mp htr)

theorem rowDominates_sent {row : RowState} {r : ChangeRecord}
    (h1 : r.isSentinel = true) :
    rowDominates row r ↔ sentDominates row r := by
  unfold rowDominates; rw [if_pos h1]

theorem rowDominates_col {row : RowState} {r : ChangeRecord}
    (h1 : r.isSentinel = false) :
    rowDominates row r ↔ colDominates row r := by
  unfold rowDominates; rw [if_neg (by simp [h1])]

theorem sentDominates_decision {row : RowState} {r : ChangeRecord}
    (h : sentDominates row r) : merge_decision_sentinel row r = false := by
  obtain ⟨sn, hsn, hk⟩ := h
  rw [merge_decision_sentinel_some hsn]
  exact mergeWins_eq_false.mpr hk

theorem colDominates_decision {row : RowState} {r : ChangeRecord}
    (h : colDominates row r) : merge_decision_col row r = false := by
  rcases h with hg | ⟨cm, hcm, hk⟩
  · exact merge_decision_col_gate_false hg
  · by_cases hg : r.cl < row.scl
    · exact merge_decision_col_gate_false hg
    · rw [merge_decision_col_some hg hcm]
      exact mergeWins_eq_false.mpr hk

theorem applySentinelRecord_self_dominates (row : RowState)
    (r : ChangeRecord) : sentDominates (applySentinelRecord row r) r := by
  rcases hd : merge_decision_sentinel row r with _ | _
  · rw [applySentinelRecord_rej hd]
    rcases hsn : row.sentinel with _ | sn
    · rw [merge_decision_sentinel_none hsn] at hd; cases hd
    · rw [merge_decision_sentinel_some hsn] at hd
      exact ⟨sn, hsn, mergeWins_eq_false.mp hd⟩
  · rw [applySentinelRecord_acc hd]
    exact ⟨r.toSentinel, rfl, by
      rw [ChangeRecord.toSentinel_mkey, keyCmp_refl]; simp⟩

theorem applyColRecord_self_dominates (row : RowState)
    (r : ChangeRecord) : colDominates (applyColRecord row r) r := by
  rcases hd : merge_decision_col row r with _ | _
  · rw [applyColRecord_rej hd]
    by_cases hg : r.cl < row.scl
    · exact Or.inl hg
    · unfold merge_decision_col at hd
      rw [if_neg hg] at hd
      rcases hcm : row.cols r.colname with _ | cm
      · rw [hcm] at hd; cases hd
      · rw [hcm] at hd
        exact Or.inr ⟨cm, hcm, mergeWins_eq_false.mp hd⟩
  · rw [applyColRecord_acc hd]
    exact Or.inr ⟨r.toColMeta,
      (by exact updateCol_same : (RowState.mk row.sentinel
        (updateCol row.cols r)).cols r.colname = some r.toColMeta),
      by rw [ChangeRecord.toColMeta_mkey, keyCmp_refl]; simp⟩

theorem scl_congr {a b : RowState} (h : a.sentinel = b.sentinel) :
    a.scl = b.scl := by
  unfold RowState.scl; rw [h]

/-- The row's causal length never decreases under a merge. -/
theorem applyRow_scl_mono (row : RowState) (r' : ChangeRecord) :
    row.scl ≤ (applyRow row r').scl := by
  rcases h1 : r'.isSentinel with _ | _
  · rw [applyRow_col h1, scl_congr (applyColRecord_sentinel row r')]
  · rw [applyRow_sent h1]
    rcases hd : merge_decision_sentinel row r' with _ | _
    · rw [applySentinelRecord_rej hd]
    · rw [applySentinelRecord_acc hd, scl_some, ChangeRecord.toSentinel_cl]
      rcases hsn : row.sentinel with _ | sn
      · rw [show row.scl = 0 from by unfold RowState.scl; rw [hsn]]
        omega
      · rw [merge_decision_sentinel_some hsn] at hd
        rw [show row.scl = sn.cl from by unfold RowState.scl; rw [hsn]]
        exact keyCmp_lt_cl_le (mergeWins_iff.mp hd)

/-- The row sentinel only ever moves up in the merge order. -/
theorem applyRow_sentinel_mono (row : RowState) (r' : ChangeRecord)
    {sn : Sentinel} (hsn : row.sentinel = some sn) :
    ∃ sn', (applyRow row r').sentinel = some sn' ∧
      keyCmp sn'.mkey sn.mkey ≠ .lt := by
  rcases h1 : r'.isSentinel with _ | _
  · refine ⟨sn, ?_, by rw [keyCmp_refl]; simp⟩
    rw [applyRow_col h1, applyColRecord_sentinel row r']
    exact hsn
  · rw [applyRow_sent h1]
    rcases hd : merge_decision_sentinel row r' with _ | _
    · rw [applySentinelRecord_rej hd]
      exact ⟨sn, hsn, by rw [keyCmp_refl]; simp⟩
    · rw [applySentinelRecord_acc hd]
      refine ⟨r'.toSentinel, rfl, ?_⟩
      rw [merge_decision_sentinel_some hsn] at hd
      rw [ChangeRecord.toSentinel_mkey]
      exact keyCmp_asymm (mergeWins_iff.mp hd)

theorem sentDominates_mono {row : RowState} {r : ChangeRecord}
    (h : sentDominates row r) (r' : ChangeRecord) :
    sentDominates (applyRow row r') r := by
  obtain ⟨sn, hsn, hk⟩ := h
  obtain ⟨sn', hsn', hge⟩ := applyRow_sentinel_mono row r' hsn
  refine ⟨sn', hsn', ?_⟩
  intro hlt
  rcases htr : keyCmp sn.mkey sn'.mkey with _ | _ | _
  · exact hk (keyCmp_lt_trans htr hlt)
  · exact hk (keyCmp_eq_iff.mp htr ▸ hlt)
  · exact hge (keyCmp_gt_iff.mp htr)

theorem colDominates_mono {row : RowState} {r : ChangeRecord}
    (h : colDominates row r) (r' : ChangeRecord) :
    colDominates (applyRow row r') r := by
  rcases h with hg | ⟨cm, hcm, hk⟩
  · exact Or.inl (Nat.lt_of_lt_of_le hg (applyRow_scl_mono row r'))
  · rcases h1 : r'.isSentinel with _ | _
    · -- another column record
      rw [applyRow_col h1]
      rcases hd : merge_decision_col row r' with _ | _
      · rw [applyColRecord_rej hd]
        exact Or.inr ⟨cm, hcm, hk⟩
      · rw [applyColRecord_acc hd]
        by_cases hc : r.colname = r'.colname
        · have hcm' : row.cols r'.colname = some cm := by rw [← hc]; exact hcm
          have hg' : ¬ r'.cl < row.scl := merge_decision_col_gate hd
          rw [merge_decision_col_some hg' hcm'] at hd
          have hlt : keyCmp cm.mkey r'.mkey = .lt := mergeWins_iff.mp hd
          refine Or.inr ⟨r'.toColMeta, ?_, ?_⟩
          · show updateCol row.cols r' r.colname = some r'.toColMeta
            rw [hc, updateCol_same]
          · rw [ChangeRecord.toColMeta_mkey]
            intro habs
            exact hk (keyCmp_lt_trans hlt habs)
        · refine Or.inr ⟨cm, ?_, hk⟩
          show updateCol row.cols r' r.colname = some cm
          rw [updateCol_ne hc]
          exact hcm
    · -- a structural record
      rw [applyRow_sent h1]
      rcases hd : merge_decision_sentinel row r' with _ | _
      · rw [applySentinelRecord_rej hd]
        exact Or.inr ⟨cm, hcm, hk⟩
      · rw [applySentinelRecord_acc hd]
        by_cases hcl : cm.cl < r'.cl
        · -- the cell is cleared, but the new sentinel gates the record out
          refine Or.inl ?_
          rw [scl_some, ChangeRecord.toSentinel_cl]
          have hrcl : r.mkey.cl ≤ cm.mkey.cl := keyCmp_not_lt_cl_le hk
          show r.cl < r'.cl
          have : r.cl ≤ cm.cl := hrcl
          omega
        · refine Or.inr ⟨cm, ?_, hk⟩
          show clearCols row.cols r'.cl r.colname = some cm
          rw [clearCols_eval, hcm]
          exact if_neg hcl

theorem rowDominates_mono {row : RowState} {r : ChangeRecord}
    (h : rowDominates row r) (r' : ChangeRecord) :
    rowDominates (applyRow row r') r := by
  rcases h1 : r.isSentinel with _ | _
  · rw [rowDominates_col h1] at h ⊢
    exact colDominates_mono h r'
  · rw [rowDominates_sent h1] at h ⊢
    exact sentDominates_mono h r'

theorem rowDominates_self (row : RowState) (r : ChangeRecord) :
    rowDominates (applyRow row r) r := by
  rcases h1 : r.isSentinel with _ | _
  · rw [rowDominates_col h1, applyRow_col h1]
    exact applyColRecord_self_dominates row r
  · rw [rowDominates_sent h1, applyRow_sent h1]
    exact applySentinelRecord_self_dominates row r

theorem rowDominates_noop {row : RowState} {r : ChangeRecord}
    (h : rowDominates row r) : applyRow row r = row := by
  rcases h1 : r.isSentinel with _ | _
  · rw [rowDominates_col h1] at h
    rw [applyRow_col h1, applyColRecord_rej (colDominates_decision h)]
  · rw [rowDominates_sent h1] at h
    rw [applyRow_sent h1, applySentinelRecord_rej (sentDominates_decision h)]

theorem dominates_self (s : ReplicaState) (r : ChangeRecord) :
    dominates (applyRecord s r) r := by
  unfold dominates applyRecord
  rw [if_pos rfl]
  exact rowDominates_self _ r

theorem dominates_mono {s : ReplicaState} {r : ChangeRecord}
    (h : dominates s r) (r' : ChangeRecord) :
    dominates (applyRecord s r') r := by
  unfold dominates applyRecord
  by_cases hk : (r.tbl, r.pk) = (r'.tbl, r'.pk)
  · rw [if_pos hk]
    exact rowDominates_mono h r'
  · rw [if_neg hk]
    exact h

theorem applyRecord_noop {s : ReplicaState} {r : ChangeRecord}
    (h : dominates s r) : applyRecord s r = s := by
  funext key
  unfold applyRecord
  by_cases hk : key = (r.tbl, r.pk)
  · rw [if_pos hk, hk]
    exact rowDominates_noop h
  · rw [if_neg hk]

theorem recordWins_false_of_dominates {s : ReplicaState} {r : ChangeRecord}
    (h : dominates s r) : recordWins s r = false := by
  unfold recordWins
  rcases h1 : r.isSentinel with _ | _
  · rw [if_neg (show ¬ (false = true) by simp)]
    exact colDominates_decision ((rowDominates_col h1).mp h)
  · rw [if_pos rfl]
    exact sentDominates_decision ((rowDominates_sent h1).mp h)

theorem payload_dominates_mono {s : ReplicaState} {r : ChangeRecord}
    (h : dominates s r) (rs : List ChangeRecord) :
    dominates (payload_apply_records s rs) r := by
  induction rs generalizing s with
  | nil => exact h
  | cons x xs ih =>
    rw [payload_apply_records_cons]
    exact ih (dominates_mono h x)

/-- After a payload is applied, the state dominates every record in it. -/
theorem payload_dominates (s : ReplicaState) (rs : List ChangeRecord) :
    ∀ r ∈ rs, dominates (payload_apply_records s rs) r := by
  induction rs generalizing s with
  | nil => intro r hr; cases hr
  | cons x xs ih =>
    intro r hr
    rw [payload_apply_records_cons]
    rcases List.mem_cons.mp hr with hr | hr
    · subst hr
      exact payload_dominates_mono (dominates_self s r) xs
    · exact ih (applyRecord s x) r hr

theorem payload_noop {t : ReplicaState} {rs : List ChangeRecord}
    (h : ∀ r ∈ rs, dominates t r) : payload_apply_records t rs = t := by
  induction rs with
  | nil => rfl
  | cons x xs ih =>
    rw [payload_apply_records_cons,
      applyRecord_noop (h x (List.mem_cons_self x xs))]
    exact ih (fun r hr => h r (List.mem_cons_of_mem _ hr))

/-- Idempotence at the record-list level: replaying an applied payload is
a no-op. -/
theorem payload_apply_records_idem (s : ReplicaState)
    (rs : List ChangeRecord) :
    payload_apply_records (payload_apply_records s rs) rs =
      payload_apply_records s rs :=
  payload_noop (payload_dominates s rs)

theorem decNat_enc (n : Nat) (r : Bytes) : decNat (encNat n ++ r) = some (n, r) := by
  induction n with
  | zero => rfl
  | succ m ih =>
    show decNat (1 :: (encNat m ++ r)) = some (m + 1, r)
    unfold decNat
    rw [ih]

theorem decBytes_enc (b r : Bytes) : decBytes (encBytes b ++ r) = some (b, r) := by
  unfold decBytes encBytes
  rw [List.append_assoc]
  simp only [decNat_enc]
  rw [if_pos (by rw [List.length_append]; omega)]
  rw [List.take_left, List.drop_left]

theorem decRecord_enc (rec : ChangeRecord) (r : Bytes) :
    decRecord (encRecord rec ++ r) = some (rec, r) := by
  unfold encRecord decRecord
  simp only [List.append_assoc, decBytes_enc, decNat_enc]

theorem decRecords_enc (rs : List ChangeRecord) (r : Bytes) :
    decRecords rs.length (encRecords rs ++ r) = some (rs, r) := by
  induction rs generalizing r with
  | nil => rfl
  | cons x xs ih =>
    show decRecords (xs.length + 1) ((encRecord x ++ encRecords xs) ++ r) = _
    unfold decRecords
    simp only [List.append_assoc, decRecord_enc, ih]

/-- Round trip: decoding an encoded payload restores the records. -/
theorem payload_decode_enc (rs : List ChangeRecord) :
    payload_decode (payload_encode rs) = some rs := by
  unfold payload_decode payload_encode
  simp only [decNat_enc]
  rw [show encRecords rs = encRecords rs ++ [] from (List.append_nil _).symm]
  simp only [decRecords_enc]

theorem decNat_sound : ∀ (x : Bytes) (n : Nat) (r : Bytes),
    decNat x = some (n, r) → x = encNat n ++ r := by
  intro x
  induction x with
  | nil => intro n r h; cases h
  | cons a as ih =>
    intro n r h
    rcases a with _ | (_ | a2)
    · unfold decNat at h
      cases h
      rfl
    · unfold decNat at h
      rcases hm : decNat as with _ | ⟨m, r2⟩
      · rw [hm] at h
        exact Option.noConfusion h
      · rw [hm] at h
        have h2 : some (m + 1, r2) = some (n, r) := h
        have hn : n = m + 1 := by cases h2; rfl
        have hr : r2 = r := by cases h2; rfl
        subst hn
        rw [hr] at hm
        show 1 :: as = (1 :: encNat m) ++ r
        rw [List.cons_append, ih m r hm]
    · unfold decNat at h
      exact Option.noConfusion h

theorem decBytes_sound {x : Bytes} {b r : Bytes}
    (h : decBytes x = some (b, r)) : x = encBytes b ++ r := by
  unfold decBytes at h
  rcases hd : decNat x with _ | ⟨n, rest⟩
  · rw [hd] at h
    exact Option.noConfusion h
  · rw [hd] at h
    have h2 : (if n ≤ rest.length then
        some (rest.take n, rest.drop n) else none) = some (b, r) := h
    by_cases hle : n ≤ rest.length
    · rw [if_pos hle] at h2
      have hb : b = rest.take n := by cases h2; rfl
      have hr : r = rest.drop n := by cases h2; rfl
      subst hb; subst hr
      rw [decNat_sound x n rest hd]
      unfold encBytes
      rw [List.append_assoc, List.take_append_drop,
        List.length_take, Nat.min_eq_left hle]
    · rw [if_neg hle] at h2
      exact Option.noConfusion h2

theorem decRecord_sound {x : Bytes} {rec : ChangeRecord} {r : Bytes}
    (h : decRecord x = some (rec, r)) : x = encRecord rec ++ r := by
  unfold decRecord at h
  rcases h1 : decBytes x with _ | ⟨tbl, x1⟩
  · rw [h1] at h; exact Option.noConfusion h
  simp only [h1] at h
  rcases h2 : decBytes x1 with _ | ⟨pk, x2⟩
  · rw [h2] at h; exact Option.noConfusion h
  simp only [h2] at h
  rcases h3 : decNat x2 with _ | ⟨cl, x3⟩
  · rw [h3] at h; exact Option.noConfusion h
  simp only [h3] at h
  rcases h4 : decBytes x3 with _ | ⟨colname, x4⟩
  · rw [h4] at h; exact Option.noConfusion h
  simp only [h4] at h
  rcases h5 : decBytes x4 with _ | ⟨value, x5⟩
  · rw [h5] at h; exact Option.noConfusion h
  simp only [h5] at h
  rcases h6 : decNat x5 with _ | ⟨col_version, x6⟩
  · rw [h6] at h; exact Option.noConfusion h
  simp only [h6] at h
  rcases h7 : decNat x6 with _ | ⟨db_version, x7⟩
  · rw [h7] at h; exact Option.noConfusion h
  simp only [h7] at h
  rcases h8 : decBytes x7 with _ | ⟨site_id, x8⟩
  · rw [h8] at h; exact Option.noConfusion h
  simp only [h8] at h
  rcases h9 : decNat x8 with _ | ⟨seq, x9⟩
  · rw [h9] at h; exact Option.noConfusion h
  simp only [h9] at h
  have hrec : rec = ⟨tbl, pk, cl, colname, value, col_version, db_version,
      site_id, seq⟩ := by cases h; rfl
  have hx9 : x9 = r := by cases h; rfl
  subst hrec
  rw [← hx9]
  rw [decBytes_sound h1, decBytes_sound h2, decNat_sound _ _ _ h3,
    decBytes_sound h4, decBytes_sound h5, decNat_sound _ _ _ h6,
    decNat_sound _ _ _ h7, decBytes_sound h8, decNat_sound _ _ _ h9]
  unfold encRecord
  simp only [List.append_assoc]

theorem decRecords_sound : ∀ (n : Nat) (x : Bytes) (rs : List ChangeRecord)
    (r : Bytes), decRecords n x = some (rs, r) →
    x = encRecords rs ++ r ∧ rs.length = n := by
  intro n
  induction n with
  | zero =>
    intro x rs r h
    have h2 : some (([] : List ChangeRecord), x) = some (rs, r) := h
    have hrs : rs = [] := by cases h2; rfl
    have hr : r = x := by cases h2; rfl
    subst hrs
    rw [hr]
    exact ⟨rfl, rfl⟩
  | succ m ih =>
    intro x rs r h
    unfold decRecords at h
    rcases h1 : decRecord x with _ | ⟨rec, x1⟩
    · rw [h1] at h; exact Option.noConfusion h
    simp only [h1] at h
    rcases h2 : decRecords m x1 with _ | ⟨tl, x2⟩
    · rw [h2] at h; exact Option.noConfusion h
    simp only [h2] at h
    have hrs : rs = rec :: tl := by cases h; rfl
    have hx2 : x2 = r := by cases h; rfl
    subst hrs
    rw [hx2] at h2
    obtain ⟨hx1, hlen⟩ := ih x1 tl r h2
    refine ⟨?_, by simp [hlen]⟩
    rw [decRecord_sound h1, hx1]
    show _ = (encRecord rec ++ encRecords tl) ++ r
    rw [List.append_assoc]

/-- Canonicity: a blob that decodes is exactly the encoding of what it
decodes to. -/
theorem payload_decode_sound {b : Bytes} {rs : List ChangeRecord}
    (h : payload_decode b = some rs) : b = payload_encode rs := by
  unfold payload_decode at h
  rcases h1 : decNat b with _ | ⟨n, rest⟩
  · rw [h1] at h; exact Option.noConfusion h
  simp only [h1] at h
  rcases h2 : decRecords n rest with _ | ⟨rs', r'⟩
  · rw [h2] at h; exact Option.noConfusion h
  rcases r' with _ | ⟨y, ys⟩
  · simp only [h2] at h
    have hrs : rs' = rs := by cases h; rfl
    obtain ⟨hrest, hlen⟩ := decRecords_sound n rest rs' [] h2
    unfold payload_encode
    rw [decNat_sound b n rest h1, hrest, List.append_nil, ← hrs, hlen]
  · rw [h2] at h; exact Option.noConfusion h

theorem encNat_prefix_eq : ∀ {a b : Nat} {x y : Bytes},
    encNat a ++ x <+: encNat b ++ y → a = b ∧ x <+: y := by
  intro a
  induction a with
  | zero =>
    intro b x y h
    rcases b with _ | m
    · obtain ⟨-, h2⟩ := List.cons_prefix_cons.mp h
      exact ⟨rfl, h2⟩
    · obtain ⟨h1, -⟩ := List.cons_prefix_cons.mp h
      cases h1
  | succ n ih =>
    intro b x y h
    rcases b with _ | m
    · obtain ⟨h1, -⟩ := List.cons_prefix_cons.mp h
      cases h1
    · obtain ⟨-, h2⟩ := List.cons_prefix_cons.mp h
      obtain ⟨h3, h4⟩ := ih h2
      exact ⟨by omega, h4⟩

theorem append_prefix_of_length : ∀ {b b' : Bytes}, b.length = b'.length →
    ∀ {x y : Bytes}, b ++ x <+: b' ++ y → b = b' ∧ x <+: y := by
  intro b
  induction b with
  | nil =>
    intro b' hlen x y h
    have : b' = [] := List.length_eq_zero.mp hlen.symm
    subst this
    exact ⟨rfl, h⟩
  | cons a as ih =>
    intro b' hlen x y h
    rcases b' with _ | ⟨a', as'⟩
    · cases hlen
    · obtain ⟨h1, h2⟩ := List.cons_prefix_cons.mp h
      obtain ⟨h3, h4⟩ := ih (by simpa using hlen) h2
      subst h1; subst h3
      exact ⟨rfl, h4⟩

theorem encBytes_prefix_eq {b b' x y : Bytes}
    (h : encBytes b ++ x <+: encBytes b' ++ y) : b = b' ∧ x <+: y := by
  unfold encBytes at h
  rw [List.append_assoc, List.append_assoc] at h
  obtain ⟨hlen, h2⟩ := encNat_prefix_eq h
  exact append_prefix_of_length hlen h2

theorem encRecord_prefix_eq {rec rec' : ChangeRecord} {x y : Bytes}
    (h : encRecord rec ++ x <+: encRecord rec' ++ y) :
    rec = rec' ∧ x <+: y := by
  unfold encRecord at h
  simp only [List.append_assoc] at h
  obtain ⟨e1, h⟩ := encBytes_prefix_eq h
  obtain ⟨e2, h⟩ := encBytes_prefix_eq h
  obtain ⟨e3, h⟩ := encNat_prefix_eq h
  obtain ⟨e4, h⟩ := encBytes_prefix_eq h
  obtain ⟨e5, h⟩ := encBytes_prefix_eq h
  obtain ⟨e6, h⟩ := encNat_prefix_eq h
  obtain ⟨e7, h⟩ := encNat_prefix_eq h
  obtain ⟨e8, h⟩ := encBytes_prefix_eq h
  obtain ⟨e9, h⟩ := encNat_prefix_eq h
  refine ⟨?_, h⟩
  cases rec; cases rec'
  simp_all

theorem encRecords_prefix_eq : ∀ {rs rs' : List ChangeRecord},
    rs.length = rs'.length → ∀ {x y : Bytes},
    encRecords rs ++ x <+: encRecords rs' ++ y → rs = rs' ∧ x <+: y := by
  intro rs
  induction rs with
  | nil =>
    intro rs' hlen x y h
    have : rs' = [] := List.length_eq_zero.mp hlen.symm
    subst this
    exact ⟨rfl, h⟩
  | cons r tl ih =>
    intro rs' hlen x y h
    rcases rs' with _ | ⟨r', tl'⟩
    · cases hlen
    · have h' : encRecord r ++ (encRecords tl ++ x) <+:
          encRecord r' ++ (encRecords tl' ++ y) := by
        rw [← List.append_assoc, ← List.append_assoc]
        exact h
      obtain ⟨e1, h2⟩ := encRecord_prefix_eq h'
      obtain ⟨e2, h3⟩ := ih (by simpa using hlen) h2
      subst e1; subst e2
      exact ⟨rfl, h3⟩

/-- Payload encodings are prefix-free: one encoding is a prefix of another
only when they are the same blob. -/
theorem payload_encode_prefix_eq {rs rs' : List ChangeRecord}
    (h : payload_encode rs <+: payload_encode rs') : rs = rs' := by
  unfold payload_encode at h
  have h' : encNat rs.length ++ (encRecords rs ++ []) <+:
      encNat rs'.length ++ (encRecords rs' ++ []) := by
    rw [List.append_nil, List.append_nil]
    exact h
  obtain ⟨hlen, h2⟩ := encNat_prefix_eq h'
  exact (encRecords_prefix_eq hlen h2).1

/-- A strict truncation of an encoded payload does not decode. -/
theorem payload_decode_take (rs : List ChangeRecord) (k : Nat)
    (hk : k < (payload_encode rs).length) :
    payload_decode ((payload_encode rs).take k) = none := by
  rcases hd : payload_decode ((payload_encode rs).take k) with _ | rs'
  · rfl
  · exfalso
    have hs := payload_decode_sound hd
    have hpre : payload_encode rs' <+: payload_encode rs := by
      rw [← hs]
      exact List.take_prefix k _
    have heq : rs' = rs := payload_encode_prefix_eq hpre
    rw [heq] at hs
    have h2 : ((payload_encode rs).take k).length =
        (payload_encode rs).length := by rw [hs]
    rw [List.length_take] at h2
    omega

theorem applyCount_fst (s : ReplicaState) (rs : List ChangeRecord) :
    (applyCount s rs).1 = payload_apply_records s rs := by
  induction rs generalizing s with
  | nil => rfl
  | cons x xs ih =>
    show (applyCount (applyRecord s x) xs).1 = _
    rw [ih, payload_apply_records_cons]

/-- A fully dominated record list is rejected wholesale: no record is
counted as applied and the state is untouched. -/
theorem applyCount_dominated {t : ReplicaState} {rs : List ChangeRecord}
    (h : ∀ r ∈ rs, dominates t r) : applyCount t rs = (t, 0) := by
  induction rs with
  | nil => rfl
  | cons x xs ih =>
    show ((applyCount (applyRecord t x) xs).1,
      (if recordWins t x then 1 else 0) +
        (applyCount (applyRecord t x) xs).2) = (t, 0)
    rw [recordWins_false_of_dominates (h x (List.mem_cons_self x xs)),
      applyRecord_noop (h x (List.mem_cons_self x xs)),
      ih (fun r hr => h r (List.mem_cons_of_mem _ hr))]
    rfl

theorem tripleWins_iff {s i : MergeKey} :
    tripleWins s i = true ↔ tripleCmp s i = .lt := by
  unfold tripleWins tripleCmp
  simp only [Ordering.then_eq_lt, natCmp_lt_iff, natCmp_eq_iff]
  split_ifs with h1 h2 h3 h4
  · simp only [true_iff]; exact Or.inl h1
  · simp only [false_iff]; rintro (h | ⟨he, -⟩) <;> omega
  · simp only [true_iff]; exact Or.inr ⟨by omega, Or.inl h3⟩
  · simp only [false_iff]; rintro (h | ⟨he, h | ⟨he2, -⟩⟩) <;> omega
  · rcases hb : bytesCmp s.site_id i.site_id with _ | _ | _
    · constructor
      · intro _
        exact Or.inr ⟨by omega, Or.inr ⟨by omega, rfl⟩⟩
      · intro _; rfl
    · constructor
      · intro h; exact absurd h (by decide)
      · rintro (h | ⟨he, h | ⟨he2, hlt⟩⟩)
        · omega
        · omega
        · exact absurd hlt (by decide)
    · constructor
      · intro h; exact absurd h (by decide)
      · rintro (h | ⟨he, h | ⟨he2, hlt⟩⟩)
        · omega
        · omega
        · exact absurd hlt (by decide)

/-- With equal causal lengths, the full rule 1–4 comparison is exactly the
rule 1–3 comparison. -/
theorem mergeWins_eq_tripleWins {s i : MergeKey} (h : s.cl = i.cl) :
    mergeWins s i = tripleWins s i := by
  unfold mergeWins tripleWins
  rw [h, if_neg (Nat.lt_irrefl i.cl), if_neg (Nat.lt_irrefl i.cl)]

theorem clearCols_zero (cols : Bytes → Option ColMeta) :
    clearCols cols 0 = cols := by
  funext c
  rw [clearCols_eval]
  rcases cols c with _ | cm
  · rfl
  · exact if_neg (Nat.not_lt_zero cm.cl)

theorem decInt_enc (i : Int) (r : Bytes) : decInt (encInt i ++ r) = some (i, r) := by
  rcases i with n | n
  · show Option.map (fun p => (Int.ofNat p.1, p.2)) (decNat (encNat n ++ r)) =
      some (Int.ofNat n, r)
    rw [decNat_enc]
    rfl
  · show Option.map (fun p => (Int.negSucc p.1, p.2)) (decNat (encNat n ++ r)) =
      some (Int.negSucc n, r)
    rw [decNat_enc]
    rfl

theorem pk_decode_value_enc {k : PKValue} {b : Bytes}
    (h : pk_encode_value k = .ok b) (r : Bytes) :
    pk_decode_value (b ++ r) = some (k, r) := by
  rcases k with i | bits | s | bl | tag
  · cases h
    show Option.map (fun p => (PKValue.vint p.1, p.2))
      (decInt (encInt i ++ r)) = some (PKValue.vint i, r)
    rw [decInt_enc]
    rfl
  · cases h
    show Option.map (fun p => (PKValue.vreal p.1, p.2))
      (decNat (encNat bits ++ r)) = some (PKValue.vreal bits, r)
    rw [decNat_enc]
    rfl
  · cases h
    show Option.map (fun p => (PKValue.vtext p.1, p.2))
      (decBytes (encBytes s ++ r)) = some (PKValue.vtext s, r)
    rw [decBytes_enc]
    rfl
  · cases h
    show Option.map (fun p => (PKValue.vblob p.1, p.2))
      (decBytes (encBytes bl ++ r)) = some (PKValue.vblob bl, r)
    rw [decBytes_enc]
    rfl
  · cases h

theorem pk_encode_list_ok {ks : List PKValue}
    (h : ∀ k ∈ ks, k.supported = true) :
    ∃ bs, pk_encode_list ks = .ok bs ∧
      ∀ r, pk_decode_list ks.length (bs ++ r) = some (ks, r) := by
  induction ks with
  | nil => exact ⟨[], rfl, fun r => rfl⟩
  | cons k tl ih =>
    obtain ⟨bs, hbs, hdec⟩ := ih (fun x hx => h x (List.mem_cons_of_mem _ hx))
    have hk : k.supported = true := h k (List.mem_cons_self k tl)
    rcases hv : pk_encode_value k with e | b
    · rcases k with i | bits | s | bl | tag <;>
        first
          | exact Bool.noConfusion hk
          | cases hv
    · refine ⟨b ++ bs, ?_, ?_⟩
      · show pk_encode_list (k :: tl) = .ok (b ++ bs)
        unfold pk_encode_list
        rw [hv, hbs]
      · intro r
        show pk_decode_list (tl.length + 1) ((b ++ bs) ++ r) = _
        unfold pk_decode_list
        rw [List.append_assoc]
        simp only [pk_decode_value_enc hv, hdec r]

theorem pk_encode_list_unsupported {ks : List PKValue}
    (h : ∃ k ∈ ks, k.supported = false) :
    pk_encode_list ks = .error .unsupportedKeyType := by
  induction ks with
  | nil => obtain ⟨k, hk, -⟩ := h; cases hk
  | cons x tl ih =>
    obtain ⟨k, hk, hsup⟩ := h
    rcases List.mem_cons.mp hk with he | hm
    · subst he
      rcases k with i | bits | s | bl | tag <;> try cases hsup
      show pk_encode_list (PKValue.vunsupported tag :: tl) = _
      unfold pk_encode_list
      rcases pk_encode_list tl with e | bs <;> rfl
    · have := ih ⟨k, hm, hsup⟩
      show pk_encode_list (x :: tl) = _
      unfold pk_encode_list
      rw [this]
      rcases pk_encode_value x with e | b
      · rcases e; rfl
      · rfl

theorem cloudsync_pk_encode_ok {ks : List PKValue}
    (h : ∀ k ∈ ks, k.supported = true) :
    ∃ bs, cloudsync_pk_encode ks = .ok bs ∧ cloudsync_pk_decode bs = some ks := by
  obtain ⟨bs, hbs, hdec⟩ := pk_encode_list_ok h
  refine ⟨encNat ks.length ++ bs, ?_, ?_⟩
  · unfold cloudsync_pk_encode
    rw [hbs]
  · unfold cloudsync_pk_decode
    simp only [decNat_enc]
    rw [show bs = bs ++ [] from (List.append_nil bs).symm]
    simp only [hdec []]

theorem cloudsync_pk_encode_unsupported {ks : List PKValue}
    (h : ∃ k ∈ ks, k.supported = false) :
    cloudsync_pk_encode ks = .error .unsupportedKeyType := by
  unfold cloudsync_pk_encode
  rw [pk_encode_list_unsupported h]

theorem cloudsync_payload_apply_none {s : ReplicaState} {b : Bytes}
    (hd : payload_decode b = none) :
    cloudsync_payload_apply s b = .error .malformedPayload := by
  unfold cloudsync_payload_apply
  rw [hd]

theorem cloudsync_payload_apply_some {s : ReplicaState} {b : Bytes}
    {rs : List ChangeRecord} (hd : payload_decode b = some rs) :
    cloudsync_payload_apply s b =
      .ok ((applyCount s rs).1, (applyCount s rs).2, rs.length) := by
  unfold cloudsync_payload_apply
  rw [hd]

/-- Applying an encoded payload succeeds: the state is the in-order merge
of all records and the reported counts are (accepted, seen). -/
theorem cloudsync_payload_apply_encode (s : ReplicaState)
    (rs : List ChangeRecord) :
    cloudsync_payload_apply s (payload_encode rs) =
      .ok (payload_apply_records s rs, (applyCount s rs).2, rs.length) := by
  rw [cloudsync_payload_apply_some (payload_decode_enc rs), applyCount_fst]

/-- Never are more records counted as applied than seen. -/
theorem applyCount_le (s : ReplicaState) (rs : List ChangeRecord) :
    (applyCount s rs).2 ≤ rs.length := by
  induction rs generalizing s with
  | nil => exact Nat.le_refl 0
  | cons x xs ih =>
    show (if recordWins s x then 1 else 0) +
      (applyCount (applyRecord s x) xs).2 ≤ xs.length + 1
    have := ih (applyRecord s x)
    split_ifs <;> omega

theorem table_algo_isgos_gos : table_algo_isgos table_algo.gos = true := rfl

theorem table_algo_isgos_cls : table_algo_isgos table_algo.cls = false := rfl

theorem applyRow_gos_delete {row : RowState} {r : ChangeRecord}
    (h : r.isDelete = true) : applyRow_gos row r = row := by
  unfold applyRow_gos
  rw [if_pos h]

/-- Under the grow-only-set variant the set of live rows never shrinks at
the row level: only non-delete structural records touch the sentinel, and
they leave it live. -/
theorem applyRow_gos_live {row : RowState} {sn : Sentinel}
    (hsn : row.sentinel = some sn) (hlive : sn.live = true)
    (r : ChangeRecord) :
    ∃ sn', (applyRow_gos row r).sentinel = some sn' ∧ sn'.live = true := by
  unfold applyRow_gos
  rcases hd : r.isDelete with _ | _
  · rw [if_neg (by simp)]
    rcases h1 : r.isSentinel with _ | _
    · rw [if_neg (by simp)]
      split
      · exact ⟨sn, hsn, hlive⟩
      · exact ⟨sn, hsn, hlive⟩
    · rw [if_pos rfl]
      split
      · refine ⟨r.toSentinel, rfl, ?_⟩
        unfold ChangeRecord.isDelete at hd
        rw [h1] at hd
        simp only [Bool.true_and] at hd
        show decide (r.value ≠ TOMBSTONE_VALUE) = true
        simp only [decide_not, hd]
        rfl
      · exact ⟨sn, hsn, hlive⟩
  · rw [if_pos rfl]
    exact ⟨sn, hsn, hlive⟩

/-- On causal-length-trivial rows, for non-delete records of causal length
zero, the grow-only-set variant coincides with the causal-length set. -/
theorem applyRow_gos_eq_cls {row : RowState} {r : ChangeRecord}
    (hrow_s : ∀ sn, row.sentinel = some sn → sn.cl = 0)
    (hrow_c : ∀ c cm, row.cols c = some cm → cm.cl = 0)
    (hr : r.cl = 0) (hd : r.isDelete = false) :
    applyRow_gos row r = applyRow row r := by
  have hscl : row.scl = 0 := by
    unfold RowState.scl
    rcases hsn : row.sentinel with _ | sn
    · rfl
    · exact hrow_s sn hsn
  unfold applyRow_gos
  rw [if_neg (by simp [hd])]
  rcases h1 : r.isSentinel with _ | _
  · -- ordinary column record
    rw [if_neg (by simp), applyRow_col h1]
    have hdec : merge_decision_col_gos row r = merge_decision_col row r := by
      unfold merge_decision_col_gos merge_decision_col
      rw [if_neg (by rw [hscl]; omega)]
      rcases hc : row.cols r.colname with _ | cm
      · rfl
      · exact (mergeWins_eq_tripleWins
          (show cm.mkey.cl = r.mkey.cl from by
            show cm.cl = r.cl
            rw [hrow_c _ _ hc, hr])).symm
    rw [hdec]
    rcases hx : merge_decision_col row r with _ | _
    · rw [applyColRecord_rej hx, if_neg (by simp)]
    · rw [applyColRecord_acc hx, if_pos rfl]
  · -- structural record
    rw [if_pos rfl, applyRow_sent h1]
    have hdec : merge_decision_sentinel_gos row r =
        merge_decision_sentinel row r := by
      unfold merge_decision_sentinel_gos merge_decision_sentinel
      rcases hsn : row.sentinel with _ | sn
      · rfl
      · exact (mergeWins_eq_tripleWins
          (show sn.mkey.cl = r.mkey.cl from by
            show sn.cl = r.cl
            rw [hrow_s sn hsn, hr])).symm
    rw [hdec]
    rcases hx : merge_decision_sentinel row r with _ | _
    · rw [applySentinelRecord_rej hx, if_neg (by simp)]
    · rw [applySentinelRecord_acc hx, if_pos rfl, hr, clearCols_zero]

/-! ## Claims -/
/-- C1: payload application commutes — two replicas that start in the
identical state `s` and each perform the local mutations of their own
site (represented by the records those mutations generate, applied to the
local state), after applying each other's encoded payload via
`cloudsync_payload_apply`, hold identical row and column state; and more
generally applying payloads P1 then P2 yields the same final state as P2
then P1 for payloads produced by independent sites. -/
theorem C1_payload_apply_commutes (s : ReplicaState)
    (P1 P2 : List ChangeRecord) (a b : Bytes)
    (h1 : ∀ r ∈ P1, r.site_id = a) (h2 : ∀ r ∈ P2, r.site_id = b)
    (hab : a ≠ b) :
    payload_apply_records (payload_apply_records s P1) P2 =
      payload_apply_records (payload_apply_records s P2) P1 ∧
    ∃ stA stB nA nB,
      cloudsync_payload_apply (payload_apply_records s P1)
        (payload_encode P2) = .ok (stA, nA, P2.length) ∧
      cloudsync_payload_apply (payload_apply_records s P2)
        (payload_encode P1) = .ok (stB, nB, P1.length) ∧
      stA = stB := by
  have hsites : ∀ r1 ∈ P1, ∀ r2 ∈ P2, r1.site_id ≠ r2.site_id := by
    intro r1 hr1 r2 hr2
    rw [h1 r1 hr1, h2 r2 hr2]
    exact hab
  have hcomm := payload_apply_records_comm s P1 P2 hsites
  exact ⟨hcomm, _, _, _, _, cloudsync_payload_apply_encode _ P2,
    cloudsync_payload_apply_encode _ P1, hcomm⟩

theorem C1_witness :
    payload_apply_records (payload_apply_records emptyState [recA]) [recB] =
      payload_apply_records (payload_apply_records emptyState [recB]) [recA] ∧
    ∃ stA stB nA nB,
      cloudsync_payload_apply (payload_apply_records emptyState [recA])
        (payload_encode [recB]) = .ok (stA, nA, [recB].length) ∧
      cloudsync_payload_apply (payload_apply_records emptyState [recB])
        (payload_encode [recA]) = .ok (stB, nB, [recA].length) ∧
      stA = stB :=
  C1_payload_apply_commutes emptyState [recA] [recB] [1] [2]
    (by decide) (by decide) (by decide)

/-- C2 counterexample: the claim "the Merge Engine accepts the incoming
record exactly when its `(col_version, dbversion, site_id)` triple is
lexicographically greater than the local triple" fails as stated: at the
concrete input `(cexRow, cexRec)` the incoming triple `(9, 9, [9])` is
lexicographically greater than the stored `(1, 1, [1])`, yet the record
is rejected (its causal length 0 is below the stored causal length 1). -/
theorem C2_counterexample :
    tripleCmp cexCell.mkey cexRec.mkey = .lt ∧
    cexRow.cols cexRec.colname = some cexCell ∧
    merge_decision_col cexRow cexRec = false := ⟨rfl, rfl, rfl⟩

/-- C2 (amended): for records at the same causal length as the stored
column metadata and not gated out by the row sentinel's causal length,
`merge_insert_col` accepts exactly when the `(col_version, dbversion,
site_id)` triple is lexicographically greater — `col_version` first,
`dbversion` on tie, and on further tie the bytewise-larger `site_id`
wins; and two records with equal `col_version` and `dbversion` but
different `site_id` resolve to the same winner regardless of application
order. -/
theorem C2_merge_insert_col_triple (row : RowState) (r : ChangeRecord)
    (c : ColMeta) (hc : row.cols r.colname = some c) (hcl : r.cl = c.cl)
    (hg : ¬ r.cl < row.scl) :
    (merge_decision_col row r = true ↔ tripleCmp c.mkey r.mkey = .lt) ∧
    (∀ (s : ReplicaState) (r1 r2 : ChangeRecord),
      r1.col_version = r2.col_version → r1.db_version = r2.db_version →
      r1.site_id ≠ r2.site_id →
      applyRecord (applyRecord s r1) r2 = applyRecord (applyRecord s r2) r1) := by
  constructor
  · rw [merge_decision_col_some hg hc,
      mergeWins_eq_tripleWins (show c.mkey.cl = r.mkey.cl from hcl.symm)]
    exact tripleWins_iff
  · intro s r1 r2 _ _ hsite
    exact applyRecord_comm s hsite

theorem C2_witness :
    (merge_decision_col rowA recB = true ↔
      tripleCmp cellA.mkey recB.mkey = .lt) ∧
    (∀ (s : ReplicaState) (r1 r2 : ChangeRecord),
      r1.col_version = r2.col_version → r1.db_version = r2.db_version →
      r1.site_id ≠ r2.site_id →
      applyRecord (applyRecord s r1) r2 = applyRecord (applyRecord s r2) r1) :=
  C2_merge_insert_col_triple rowA recB cellA (by decide) (by decide) (by decide)

/-- C3: a record whose causal length is strictly below the causal length
stored in the row's sentinel is rejected regardless of how high its
`col_version` and `dbversion` are — both as a structural record
(`merge_insert`) and as an ordinary column record (`merge_insert_col`) —
and applying it leaves the row unchanged.  In particular, after a row is
deleted at `cl = 0` and re-inserted at `cl = 1`, a stale record carrying
`cl = 0` is rejected even if its `col_version`/`dbversion` exceed every
`cl = 1` record. -/
theorem C3_stale_cl_rejected (row : RowState) (r : ChangeRecord)
    (sn : Sentinel) (hsn : row.sentinel = some sn) (hlt : r.cl < sn.cl) :
    merge_decision_sentinel row r = false ∧
    merge_decision_col row r = false ∧
    applyRow row r = row := by
  have hs : merge_decision_sentinel row r = false := by
    rw [merge_decision_sentinel_some hsn]
    exact mergeWins_eq_false.mpr
      (keyCmp_asymm (keyCmp_lt_of_cl_lt (show r.mkey.cl < sn.mkey.cl from hlt)))
  have hscl : row.scl = sn.cl := by unfold RowState.scl; rw [hsn]
  have hcol : merge_decision_col row r = false :=
    merge_decision_col_gate_false (by rw [hscl]; exact hlt)
  refine ⟨hs, hcol, ?_⟩
  rcases h1 : r.isSentinel with _ | _
  · rw [applyRow_col h1, applyColRecord_rej hcol]
  · rw [applyRow_sent h1, applySentinelRecord_rej hs]

theorem C3_witness :
    merge_decision_sentinel row3 staleRec = false ∧
    merge_decision_col row3 staleRec = false ∧
    applyRow row3 staleRec = row3 :=
  C3_stale_cl_rejected row3 staleRec ⟨1, 1, 2, [5], true, 1⟩ rfl (by decide)

/-- C4: applying a payload blob is idempotent — for every payload `b` and
every state `s'` that results from applying `b` once via
`cloudsync_payload_apply`, applying `b` again succeeds, leaves the state
at `s'`, and reports zero applied records out of the same total: every
replayed record is re-evaluated by the merge engine and uniformly
rejected, because the stored metadata already dominates it. -/
theorem C4_payload_apply_idempotent (s : ReplicaState) (b : Bytes)
    (s' : ReplicaState) (n m : Nat)
    (h : cloudsync_payload_apply s b = .ok (s', n, m)) :
    cloudsync_payload_apply s' b = .ok (s', 0, m) := by
  rcases hd : payload_decode b with _ | rs
  · rw [cloudsync_payload_apply_none hd] at h
    cases h
  · rw [cloudsync_payload_apply_some hd] at h
    have h' : (((applyCount s rs).1, (applyCount s rs).2, rs.length) :
        ReplicaState × Nat × Nat) = (s', n, m) := by cases h; rfl
    have hs' : (applyCount s rs).1 = s' := congrArg Prod.fst h'
    have hm : rs.length = m := congrArg (fun p => p.2.2) h'
    have hsp : s' = payload_apply_records s rs := by
      rw [← hs', applyCount_fst]
    have hdom : ∀ r ∈ rs, dominates s' r := by
      rw [hsp]
      exact payload_dominates s rs
    rw [cloudsync_payload_apply_some hd, applyCount_dominated hdom, ← hm]

theorem C4_witness :
    cloudsync_payload_apply (payload_apply_records emptyState [recA])
      (payload_encode [recA]) =
      .ok (payload_apply_records emptyState [recA], 0, 1) :=
  C4_payload_apply_idempotent emptyState (payload_encode [recA])
    (payload_apply_records emptyState [recA]) 1 1
    (by rw [cloudsync_payload_apply_encode]; rfl)

/-- C5: for every local dbversion `L` and genuine merging version `M`
(not the reserved not-set value), `cloudsync_dbversion_next` returns
`max(L, M) + 1` (which is also the value persisted as the new local
dbversion), strictly greater than both the incoming origin clock and the
prior local dbversion; and the counter is monotonically non-decreasing
across every invocation. -/
theorem C5_dbversion_next (L M : Int) (hM : M ≠ CLOUDSYNC_VALUE_NOTSET) :
    cloudsync_dbversion_next L M = max L M + 1 ∧
    L < cloudsync_dbversion_next L M ∧
    M < cloudsync_dbversion_next L M ∧
    (∀ M' : Int, L ≤ cloudsync_dbversion_next L M') := by
  unfold cloudsync_dbversion_next
  rw [if_neg hM]
  refine ⟨rfl, ?_, ?_, ?_⟩
  · have := le_max_left L M
    omega
  · have := le_max_right L M
    omega
  · intro M'
    by_cases h : M' = CLOUDSYNC_VALUE_NOTSET
    · rw [if_pos h]
      omega
    · rw [if_neg h]
      have := le_max_left L M'
      omega

theorem C5_witness :
    cloudsync_dbversion_next 3 5 = max 3 5 + 1 ∧
    (3 : Int) < cloudsync_dbversion_next 3 5 ∧
    (5 : Int) < cloudsync_dbversion_next 3 5 ∧
    (∀ M' : Int, (3 : Int) ≤ cloudsync_dbversion_next 3 M') :=
  C5_dbversion_next 3 5 (by decide)

/-- C6: `cloudsync_payload_apply` fails with `MalformedPayload` exactly
when the blob is not a payload encoding (in particular on every strict
truncation of a valid encoding); on a well-formed blob it feeds each
decoded record to the merge engine in file order and reports the count of
records actually accepted out of the total seen, a merge-engine reject is
never reported as an error and never aborts the remaining batch, and the
accepted count never exceeds the total. -/
theorem C6_payload_apply_spec (s : ReplicaState) :
    (∀ b : Bytes, cloudsync_payload_apply s b = .error .malformedPayload ↔
      ¬ ∃ rs, b = payload_encode rs) ∧
    (∀ rs : List ChangeRecord, cloudsync_payload_apply s (payload_encode rs) =
      .ok (payload_apply_records s rs, (applyCount s rs).2, rs.length)) ∧
    (∀ rs : List ChangeRecord, (applyCount s rs).2 ≤ rs.length) ∧
    (∀ (rs : List ChangeRecord) (k : Nat), k < (payload_encode rs).length →
      cloudsync_payload_apply s ((payload_encode rs).take k) =
        .error .malformedPayload) := by
  refine ⟨?_, fun rs => cloudsync_payload_apply_encode s rs,
    fun rs => applyCount_le s rs,
    fun rs k hk => cloudsync_payload_apply_none (payload_decode_take rs k hk)⟩
  intro b
  constructor
  · intro he
    rintro ⟨rs, rfl⟩
    rw [cloudsync_payload_apply_encode] at he
    cases he
  · intro hne
    rcases hd : payload_decode b with _ | rs
    · exact cloudsync_payload_apply_none hd
    · exact absurd ⟨rs, payload_decode_sound hd⟩ hne

theorem C6_witness :
    cloudsync_payload_apply emptyState (payload_encode [recA]) =
      .ok (payload_apply_records emptyState [recA],
        (applyCount emptyState [recA]).2, 1) ∧
    2 < (payload_encode [recA]).length ∧
    cloudsync_payload_apply emptyState ((payload_encode [recA]).take 2) =
      .error .malformedPayload :=
  ⟨(C6_payload_apply_spec emptyState).2.1 [recA], by decide,
    (C6_payload_apply_spec emptyState).2.2.2 [recA] 2 (by decide)⟩

/-- C7: for every composite primary key built from supported column
types, encoding the key with `cloudsync_pk_encode` and decoding it back
restores exactly the original typed column values, and encoding a key
containing a column of an unsupported type fails with
`UnsupportedKeyType`. -/
theorem C7_pk_codec_roundtrip :
    (∀ ks : List PKValue, (∀ k ∈ ks, k.supported = true) →
      ∃ bs, cloudsync_pk_encode ks = .ok bs ∧
        cloudsync_pk_decode bs = some ks) ∧
    (∀ ks : List PKValue, (∃ k ∈ ks, k.supported = false) →
      cloudsync_pk_encode ks = .error .unsupportedKeyType) :=
  ⟨fun _ h => cloudsync_pk_encode_ok h,
   fun _ h => cloudsync_pk_encode_unsupported h⟩

theorem C7_witness :
    (∃ bs, cloudsync_pk_encode [PKValue.vint 5, PKValue.vtext [97]] =
        .ok bs ∧
      cloudsync_pk_decode bs = some [PKValue.vint 5, PKValue.vtext [97]]) ∧
    cloudsync_pk_encode [PKValue.vint 1, PKValue.vunsupported 0] =
      .error .unsupportedKeyType :=
  ⟨C7_pk_codec_roundtrip.1 [PKValue.vint 5, PKValue.vtext [97]] (by decide),
   C7_pk_codec_roundtrip.2 [PKValue.vint 1, PKValue.vunsupported 0] (by decide)⟩

/-- C8: when the local mutation tracker observes a local insert for a
primary key with no sentinel, `local_mark_insert_sentinel_meta` creates a
sentinel with `cl = 0` marked live; when the stored sentinel is
tombstoned, it increments its `cl` by one (a new incarnation) and marks
it live. -/
theorem C8_local_insert_sentinel (site : Bytes) (db_version seq : Nat) :
    ((local_mark_insert_sentinel_meta none site db_version seq).cl = 0 ∧
     (local_mark_insert_sentinel_meta none site db_version seq).live = true) ∧
    (∀ sn : Sentinel, sn.live = false →
      (local_mark_insert_sentinel_meta (some sn) site db_version seq).cl =
        sn.cl + 1 ∧
      (local_mark_insert_sentinel_meta (some sn) site db_version seq).live =
        true) := by
  refine ⟨⟨rfl, rfl⟩, ?_⟩
  intro sn hsn
  simp [local_mark_insert_sentinel_meta, hsn]

theorem C8_witness :
    (local_mark_insert_sentinel_meta (some ⟨0, 1, 1, [1], false, 0⟩)
      [1] 2 1).cl = 0 + 1 ∧
    (local_mark_insert_sentinel_meta (some ⟨0, 1, 1, [1], false, 0⟩)
      [1] 2 1).live = true :=
  (C8_local_insert_sentinel [1] 2 1).2 ⟨0, 1, 1, [1], false, 0⟩ rfl

/-- C9: under the grow-only-set variant (`table_algo_isgos`), a delete or
tombstone record is never applied (the state is untouched), the set of
live rows only ever grows, and on causal-length-trivial states the
variant behaves identically to the default causal-length set on every
non-delete record — only the causal-length and tombstone/delete rules
are disabled. -/
theorem C9_grow_only_set :
    (∀ (s : ReplicaState) (r : ChangeRecord), r.isDelete = true →
      applyRecord_algo table_algo.gos s r = s) ∧
    (∀ (s : ReplicaState) (r : ChangeRecord),
      liveRows s ⊆ liveRows (applyRecord_algo table_algo.gos s r)) ∧
    (∀ (s : ReplicaState) (r : ChangeRecord), clTrivial s → r.cl = 0 →
      r.isDelete = false →
      applyRecord_algo table_algo.gos s r =
        applyRecord_algo table_algo.cls s r) := by
  refine ⟨?_, ?_, ?_⟩
  · intro s r h
    funext key
    unfold applyRecord_algo
    by_cases hk : key = (r.tbl, r.pk)
    · rw [if_pos hk]
      unfold applyRow_algo
      rw [if_pos table_algo_isgos_gos, applyRow_gos_delete h]
    · rw [if_neg hk]
  · intro s r p hp
    obtain ⟨sn, hsn, hlive⟩ := hp
    show ∃ sn', ((applyRecord_algo table_algo.gos s r) p).sentinel = some sn' ∧
      sn'.live = true
    unfold applyRecord_algo
    by_cases hk : p = (r.tbl, r.pk)
    · rw [if_pos hk]
      unfold applyRow_algo
      rw [if_pos table_algo_isgos_gos]
      exact applyRow_gos_live hsn hlive r
    · rw [if_neg hk]
      exact ⟨sn, hsn, hlive⟩
  · intro s r htriv hr hd
    funext key
    unfold applyRecord_algo
    by_cases hk : key = (r.tbl, r.pk)
    · rw [if_pos hk, if_pos hk]
      unfold applyRow_algo
      rw [if_pos table_algo_isgos_gos,
        if_neg (show ¬ table_algo_isgos table_algo.cls = true by decide)]
      exact applyRow_gos_eq_cls (htriv key).1 (htriv key).2 hr hd
    · rw [if_neg hk, if_neg hk]

theorem C9_witness :
    applyRecord_algo table_algo.gos emptyState delRec = emptyState ∧
    applyRecord_algo table_algo.gos emptyState recA =
      applyRecord_algo table_algo.cls emptyState recA :=
  ⟨C9_grow_only_set.1 emptyState delRec (by decide),
   C9_grow_only_set.2.2 emptyState recA
     (fun _ => ⟨fun _ h => Option.noConfusion h,
       fun _ _ h => Option.noConfusion h⟩) rfl (by decide)⟩

/-- C10: calling `cloudsync_dbversion_next` with the reserved not-set
value `CLOUDSYNC_VALUE_NOTSET = -1` behaves as the spec's no-argument
local-commit case: it increments the local dbversion by one and returns
it, and the `-1` never takes part in the `max(local, merging_version)`
computation as a version. -/
theorem C10_dbversion_notset (L : Int) :
    cloudsync_dbversion_next L CLOUDSYNC_VALUE_NOTSET = L + 1 ∧
    cloudsync_dbversion_next L CLOUDSYNC_VALUE_NOTSET =
      dbversion_local_commit L := by
  unfold cloudsync_dbversion_next dbversion_local_commit
  rw [if_pos rfl]
  exact ⟨rfl, rfl⟩

end CloudSync
